import Mathlib

/-!
Verification of the Grid-Based-Pathplaner repository (src/vectorGrid.py,
src/GraphGrid.py, src/main.py, src/utils.py) against its specification.

The Python source works on floating-point planar coordinates through the
shapely/geopandas/networkx libraries.  The shallow embedding below models
coordinates as exact fractions of integers (`Frac`, kernel-computable,
with value semantics into ℚ and ℝ), models the relevant library calls by
their documented geometric meaning, and keeps every repository-side
computation executable.
-/

/-- Exact fraction `num / den`.  The embedding of a Python float coordinate.
`den` is kept positive by every constructor used in the development; the
well-formedness predicate `Frac.WF` records this where proofs need it.
No gcd normalisation is performed (value equality is `Frac.eqb`). -/
structure Frac where
  num : ℤ
  den : ℕ
  deriving DecidableEq

/-- Well-formed fraction: positive denominator. -/
def Frac.WF (a : Frac) : Prop := 0 < a.den

instance (a : Frac) : Decidable a.WF := inferInstanceAs (Decidable (0 < a.den))

/-- Embed an integer. -/
def Frac.ofInt (n : ℤ) : Frac := ⟨n, 1⟩

/-- Build a fraction from a signed numerator and signed denominator,
moving the denominator's sign onto the numerator. -/
def Frac.mkZ (n d : ℤ) : Frac := if d < 0 then ⟨-n, (-d).toNat⟩ else ⟨n, d.toNat⟩

def Frac.add (a b : Frac) : Frac := ⟨a.num * b.den + b.num * a.den, a.den * b.den⟩

def Frac.sub (a b : Frac) : Frac := ⟨a.num * b.den - b.num * a.den, a.den * b.den⟩

def Frac.mul (a b : Frac) : Frac := ⟨a.num * b.num, a.den * b.den⟩

def Frac.neg (a : Frac) : Frac := ⟨-a.num, a.den⟩

/-- Value order, by cross multiplication (correct for positive denominators). -/
def Frac.blt (a b : Frac) : Bool := a.num * b.den < b.num * a.den

def Frac.ble (a b : Frac) : Bool := a.num * b.den ≤ b.num * a.den

/-- Value equality, by cross multiplication. -/
def Frac.eqb (a b : Frac) : Bool := a.num * b.den == b.num * a.den

/-- Value of a fraction in ℚ. -/
def Frac.toQ (a : Frac) : ℚ := (a.num : ℚ) / (a.den : ℚ)

/-- Value of a fraction in ℝ. -/
noncomputable def Frac.toR (a : Frac) : ℝ := (a.num : ℝ) / (a.den : ℝ)

/-- A planar point: the embedding of a shapely Point / coordinate pair. -/
abbrev PointF := Frac × Frac

/-- Value equality of two points; the embedding of coordinate equality
(the source compares shapely point geometries for equality). -/
def pointEq (p q : PointF) : Bool := Frac.eqb p.1 q.1 && Frac.eqb p.2 q.2

/-- Squared Euclidean distance between two points, exactly.
The source compares Euclidean distances of float points; comparing squared
distances is order-equivalent and stays in exact arithmetic. -/
def sqDistF (p q : PointF) : Frac :=
  ((p.1.sub q.1).mul (p.1.sub q.1)).add ((p.2.sub q.2).mul (p.2.sub q.2))

/-! ## The graph model (src/GraphGrid.py)

networkx stores an undirected graph; `GraphGrid.create_graph` adds one node
per passable grid cell and one undirected edge per adjacent pair of
distinct passable cells, weighted by the Euclidean distance of the two
cells' centroids. -/

/-- A weighted undirected graph over natural-number node ids, the embedding
of the networkx graph built by `GraphGrid.create_graph`.  An edge list entry
`(u, v, w)` represents the undirected edge between `u` and `v` with weight
`w` (networkx graphs are undirected, so an entry connects both directions;
see `Graph.Edge`). -/
structure Graph (α : Type) where
  nodes : List ℕ
  edges : List (ℕ × ℕ × α)

/-- The weight of the edge between `u` and `v`, if one exists (either
orientation of the stored entry). -/
def Graph.edgeWeight? {α : Type} (g : Graph α) (u v : ℕ) : Option α :=
  (g.edges.find? fun e => (e.1 == u && e.2.1 == v) || (e.1 == v && e.2.1 == u)).map (·.2.2)

/-- Adjacency test. -/
def Graph.hasEdge {α : Type} (g : Graph α) (u v : ℕ) : Bool :=
  (g.edgeWeight? u v).isSome

/-- The undirected edge relation with weight, as a proposition. -/
def Graph.Edge {α : Type} (g : Graph α) (u v : ℕ) (w : α) : Prop :=
  (u, v, w) ∈ g.edges ∨ (v, u, w) ∈ g.edges

/-- The node list without duplicates (networkx node sets contain each node
once however often it is added). -/
def Graph.nodeList {α : Type} (g : Graph α) : List ℕ := g.nodes.dedup

/-- Neighbours of `u` among the graph's nodes. -/
def Graph.nbrs {α : Type} (g : Graph α) (u : ℕ) : List ℕ :=
  g.nodeList.filter fun v => g.hasEdge u v

/-- Total weight of a vertex sequence: the sum of the weights of its
consecutive edges (missing edges count 0; on genuine paths every
consecutive pair has an edge). -/
def pathWeight {α : Type} [AddCommMonoid α] (g : Graph α) : List ℕ → α
  | [] => 0
  | [_] => 0
  | u :: v :: rest => (g.edgeWeight? u v).getD 0 + pathWeight g (v :: rest)

/-- `p` is a connecting edge sequence from `s` to `t` in `g`: nonempty,
starts at `s`, ends at `t`, and every consecutive pair is joined by an
edge. -/
def IsPathFrom {α : Type} (g : Graph α) (s t : ℕ) (p : List ℕ) : Prop :=
  p.head? = some s ∧ p.getLast? = some t ∧ p.Chain' fun u v => g.hasEdge u v = true

/-- Executable check of the consecutive-edge condition of `IsPathFrom`. -/
def chainHasEdge {α : Type} (g : Graph α) : List ℕ → Bool
  | [] => true
  | [_] => true
  | u :: v :: rest => g.hasEdge u v && chainHasEdge g (v :: rest)

instance {α : Type} (g : Graph α) (s t : ℕ) (p : List ℕ) :
    Decidable (IsPathFrom g s t p) :=
  decidable_of_iff (p.head? = some s ∧ p.getLast? = some t ∧ chainHasEdge g p = true)
    (by
      have hiff : ∀ q : List ℕ,
          chainHasEdge g q = true ↔ q.Chain' (fun u v => g.hasEdge u v = true) := by
        intro q
        induction q with
        | nil => simp [chainHasEdge]
        | cons u rest ih =>
          rcases rest with _ | ⟨v, rest'⟩
          · simp [chainHasEdge]
          · rw [List.chain'_cons, ← ih]
            simp [chainHasEdge]
      unfold IsPathFrom
      rw [hiff p])

/-- Depth-first enumeration of the edge sequences from `u` to `t` that avoid
`visited` and repeat no vertex.  This is the candidate set from which the
model of networkx astar search picks a minimum-weight path. -/
def extendPaths {α : Type} (g : Graph α) (t : ℕ) : ℕ → ℕ → List ℕ → List (List ℕ)
  | 0, _, _ => []
  | fuel+1, u, visited =>
    if u == t then [[t]]
    else ((g.nbrs u).filter fun v => !visited.contains v).flatMap
      fun v => (extendPaths g t fuel v (u :: visited)).map (u :: ·)

/-- All candidate simple paths from `s` to `t`. -/
def allPathsFound {α : Type} (g : Graph α) (s t : ℕ) : List (List ℕ) :=
  extendPaths g t (g.nodeList.length + 1) s []

/-- First element of minimum key in a list (the fold keeps the earlier
element on ties). -/
def argminBy {γ β : Type} [LinearOrder β] (f : γ → β) : List γ → Option γ
  | [] => none
  | x :: xs => some (xs.foldl (fun best y => if f y < f best then y else best) x)

/-- The failure modes of `GraphGrid.find_path`: the two explicit
ValueError raises for an unknown start or end node, and the
NetworkXNoPath exception that nx astar search raises when the target is
unreachable (the spec's NoPathFound). -/
inductive FindErr where
  | valueErrorStartNotInGraph (id : ℕ)
  | valueErrorEndNotInGraph (id : ℕ)
  | networkXNoPath
  deriving DecidableEq

/-- The embedding of `GraphGrid.find_path`.  The source checks start and end
membership (raising ValueError), then calls networkx astar search with the
default zero heuristic, which returns a path of minimum total weight or
raises NetworkXNoPath; which minimum-weight path is returned on ties is an
implementation detail of the library, modelled here as the first one in
depth-first enumeration order. -/
def findPath {α : Type} [LinearOrder α] [AddCommMonoid α] (g : Graph α)
    (s t : ℕ) : Except FindErr (List ℕ) :=
  if s ∈ g.nodes then
    if t ∈ g.nodes then
      match argminBy (pathWeight g) (allPathsFound g s t) with
      | some p => .ok p
      | none => .error .networkXNoPath
    else .error (.valueErrorEndNotInGraph t)
  else .error (.valueErrorStartNotInGraph s)

/-- A concrete two-node graph with one edge, used as the path-finder witness input. -/
def pathWitnessGraph : Graph ℕ := ⟨[0, 1], [(0, 1, 5)]⟩

/-- A concrete two-node graph with no edges, used as the no-path witness input. -/
def noPathWitnessGraph : Graph ℕ := ⟨[0, 1], []⟩

/-! ## The graph builder (GraphGrid.create_graph)

The source adds a node for every passable grid row (storing the row's
geometry as a node attribute), spatially joins the grid with a buffered
copy of itself (a geometric adjacency test on cell geometries, modelled
below by the `adjacent` parameter), and adds an undirected edge for every
joined pair of distinct ids that are both graph nodes, weighted by the
Euclidean distance between the centroids of the two node geometries. -/

/-- A grid row as seen by the graph builder and the nearest-cell locator:
its id, its passable flag and the centroid of its geometry. -/
structure Cell where
  id : ℕ
  passable : Bool
  centroid : PointF
  deriving DecidableEq

/-- Euclidean distance between two points; the embedding of
shapely point distance. -/
noncomputable def euclDist (p q : PointF) : ℝ := Real.sqrt (sqDistF p q).toR

/-- Centroid of the geometry stored on the graph node with id `i`:
node attributes are written once per passable row in grid order, later
writes overwriting earlier ones, so the stored geometry is that of the
last passable row carrying the id. -/
def nodeCentroid (grid : List Cell) (i : ℕ) : PointF :=
  match (grid.filter fun c => c.passable && c.id == i).getLast? with
  | some c => c.centroid
  | none => (⟨0, 1⟩, ⟨0, 1⟩)

/-- The embedding of `GraphGrid.create_graph`.  `adjacent a b` models the
spatial-join predicate of the source: the geometry of `a` intersects the
geometry of `b` buffered outward by 1 unit. -/
noncomputable def createGraph (adjacent : Cell → Cell → Bool) (grid : List Cell) :
    Graph ℝ :=
  let nodes := (grid.filter (·.passable)).map (·.id)
  let pairs := grid.flatMap fun a =>
    grid.filterMap fun b => if adjacent a b then some (a, b) else none
  let edges := pairs.filterMap fun ab =>
    if ab.1.id ≠ ab.2.id ∧ ab.1.id ∈ nodes ∧ ab.2.id ∈ nodes
    then some (ab.1.id, ab.2.id,
      euclDist (nodeCentroid grid ab.1.id) (nodeCentroid grid ab.2.id))
    else none
  ⟨nodes, edges⟩

/-- Concrete two-cell grid used as the graph-builder witness input. -/
def graphWitnessCells : List Cell :=
  [⟨0, true, (⟨0, 1⟩, ⟨0, 1⟩)⟩, ⟨1, true, (⟨10, 1⟩, ⟨0, 1⟩)⟩]

/-- Concrete adjacency predicate used as the graph-builder witness input. -/
def graphWitnessAdj : Cell → Cell → Bool := fun _ _ => true

/-! ## The nearest-cell locator (VectorGrid.closest_cell_id)

The source builds a multipoint from the centroids of all passable cells,
asks shapely for the nearest of those points to the query point, and then
returns the id of the first grid row whose centroid equals that nearest
point (searching all rows, passable or not).  With zero passable cells
the multipoint union is empty and the nearest-point computation raises an
untyped error from the geometry library; the source contains no
NoPassableCells check (the constructor below named after the spec's
designed error is never produced). -/

inductive LocErr where
  | noPassableCells
  | shapelyEmptyGeometry
  | indexError
  deriving DecidableEq

/-- The nearest passable cell to `p` (None when no passable cell exists,
in which case the multipoint union is empty).  The library's choice among
exactly tied nearest points is unspecified and the union of the centroids
does not preserve row order, so this executable first-in-order resolution
is only one possible behaviour; it is used below solely where the choice
cannot matter (an empty query, or concrete runs whose minimum is unique).
The tie-general contract of the nearest-point query is `IsNearestAmong`,
used with `closestCellIdFrom`. -/
def argminSqDist (p : PointF) : List Cell → Option Cell
  | [] => none
  | c :: cs =>
    match argminSqDist p cs with
    | none => some c
    | some b =>
      if Frac.blt (sqDistF p b.centroid) (sqDistF p c.centroid) then some b else some c

/-- The embedding of `VectorGrid.closest_cell_id` with the nearest-point
query resolved first-in-order; every conforming resolution agrees on the
inputs this definition is applied to (empty queries and the concrete run
with a unique minimum), and `closestCellIdFrom` leaves the resolution
open where ties could occur. -/
def closestCellId (cells : List Cell) (p : PointF) : Except LocErr ℕ :=
  match argminSqDist p (cells.filter (·.passable)) with
  | none => .error .shapelyEmptyGeometry
  | some cmin =>
    match cells.find? fun c => pointEq c.centroid cmin.centroid with
    | some c => .ok c.id
    | none => .error .indexError

/-- Squared distance of `p` to the centroid of a cell, as a rational value. -/
def cellKeyQ (p : PointF) (c : Cell) : ℚ := (sqDistF p c.centroid).toQ

/-- Well-formed cell: its centroid coordinates have positive denominators. -/
def Cell.WFc (c : Cell) : Prop := c.centroid.1.WF ∧ c.centroid.2.WF

instance (c : Cell) : Decidable c.WFc :=
  inferInstanceAs (Decidable (c.centroid.1.WF ∧ c.centroid.2.WF))

instance {eTy gTy : Type} [DecidableEq eTy] [DecidableEq gTy] :
    DecidableEq (Except eTy gTy)
  | .ok x, .ok y =>
    if h : x = y then .isTrue (by rw [h])
    else .isFalse (by intro hc; injection hc; contradiction)
  | .ok _, .error _ => .isFalse (by intro hc; cases hc)
  | .error _, .ok _ => .isFalse (by intro hc; cases hc)
  | .error e, .error f =>
    if h : e = f then .isTrue (by rw [h])
    else .isFalse (by intro hc; injection hc; contradiction)

/-- Concrete two-cell grid for the locator witness. -/
def locWitnessCells : List Cell :=
  [⟨0, true, (⟨0, 1⟩, ⟨0, 1⟩)⟩, ⟨1, true, (⟨5, 1⟩, ⟨0, 1⟩)⟩]

/-- Concrete all-impassable grid. -/
def impassableCells : List Cell := [⟨0, false, (⟨0, 1⟩, ⟨0, 1⟩)⟩]

/-- The contract of shapely nearest_points against the multipoint union
of the passable centroids: the returned point is some member of the set
at minimal squared distance to the query point (`Frac.ble` is value `≤`
on well-formed fractions, `Frac.ble_iff`).  Which member is returned
when several are exactly tied the library leaves unspecified, and the
union does not preserve row order, so every minimal member is a possible
outcome. -/
def IsNearestAmong (p : PointF) (pts : List PointF) (q : PointF) : Prop :=
  q ∈ pts ∧ ∀ r ∈ pts, (sqDistF p q).ble (sqDistF p r) = true

instance (p : PointF) (pts : List PointF) (q : PointF) :
    Decidable (IsNearestAmong p pts q) :=
  inferInstanceAs
    (Decidable (q ∈ pts ∧ ∀ r ∈ pts, (sqDistF p q).ble (sqDistF p r) = true))

/-- The embedding of `VectorGrid.closest_cell_id` with the library's
nearest-point choice exposed: `nearest` is whichever point the
nearest-point query returned (any point satisfying `IsNearestAmong`).
As in the source, a grid with no passable cell makes the query itself
fail, and otherwise the returned point is matched back against the
centroids of ALL rows, the first match's id being returned. -/
def closestCellIdFrom (cells : List Cell) (nearest : PointF) : Except LocErr ℕ :=
  if cells.filter (·.passable) = [] then .error .shapelyEmptyGeometry
  else
    match cells.find? fun c => pointEq c.centroid nearest with
    | some c => .ok c.id
    | none => .error .indexError

/-- Two passable cells whose centroids (0,0) and (4,0) are exactly
equidistant from the query point (2,0). -/
def tieCells : List Cell :=
  [⟨0, true, (⟨0, 1⟩, ⟨0, 1⟩)⟩, ⟨1, true, (⟨4, 1⟩, ⟨0, 1⟩)⟩]

/-! ## The grid builder (VectorGrid.create_vector_grid)

The source computes a buffer equal to the maximum distance from the
boundary polygon's centroid to its exterior-ring vertices, expands the
polygon's bounding box by that buffer (modelled exactly: shapely's
buffered-polygon bounds equal the original bounds expanded by the radius),
truncates the expanded bounds to integers with Python int(), tiles
integer-spaced full-size square cells with Python range(), rotates the
grid geometry if a rotation is given (geometry rotation is modelled
separately over ℝ, see the rotate section), computes passability against
the obstacle set, and assigns ids 0..n-1 in construction order.
All arithmetic is exact here; the buffer is an exact square root handled
through integer square-root truncation. -/

/-- Fueled integer square root (Newton recursion on n / 4); fuel `n`
suffices. -/
def isqrtAux : ℕ → ℕ → ℕ
  | 0, _ => 0
  | f + 1, n =>
    if n < 2 then n
    else
      let s := 2 * isqrtAux f (n / 4)
      if (s + 1) * (s + 1) ≤ n then s + 1 else s

/-- Integer square root: the largest k with k * k ≤ n. -/
def isqrt (n : ℕ) : ℕ := isqrtAux n n

/-- Floor of the square root of a non-negative fraction. -/
def ratSqrtFloor (r : Frac) : ℕ := isqrt (r.num.toNat * r.den) / r.den

/-- Ceiling of the square root of a non-negative fraction. -/
def ratSqrtCeil (r : Frac) : ℕ :=
  let f := ratSqrtFloor r
  if ((f * f : ℕ) : ℤ) * (r.den : ℤ) == r.num then f else f + 1

/-- Floor of `q + sqrt r` for fractions with `r ≥ 0`. -/
def floorAddSqrt (q r : Frac) : ℤ :=
  Int.ediv (q.num + (ratSqrtFloor ⟨(q.den : ℤ) ^ 2 * r.num, r.den⟩ : ℤ)) (q.den : ℤ)

/-- Floor of `q - sqrt r` for fractions with `r ≥ 0`. -/
def floorSubSqrt (q r : Frac) : ℤ :=
  Int.ediv (q.num - (ratSqrtCeil ⟨(q.den : ℤ) ^ 2 * r.num, r.den⟩ : ℤ)) (q.den : ℤ)

/-- Python `int(q + sqrt r)`: truncation toward zero. -/
def truncAddSqrt (q r : Frac) : ℤ :=
  if 0 ≤ q.num ∨ q.num ^ 2 * (r.den : ℤ) ≤ r.num * (q.den : ℤ) ^ 2
  then floorAddSqrt q r
  else - floorSubSqrt q.neg r

/-- Python `int(q - sqrt r)`: truncation toward zero. -/
def truncSubSqrt (q r : Frac) : ℤ :=
  if 0 ≤ q.num ∧ r.num * (q.den : ℤ) ^ 2 ≤ q.num ^ 2 * (r.den : ℤ)
  then floorSubSqrt q r
  else - floorAddSqrt q.neg r

/-- Fueled body of Python `range(start, stop, step)` over integers. -/
def pyRangeAux (stop step : ℤ) : ℕ → ℤ → List ℤ
  | 0, _ => []
  | f + 1, cur =>
    if (0 < step ∧ cur < stop) ∨ (step < 0 ∧ stop < cur)
    then cur :: pyRangeAux stop step f (cur + step)
    else []

/-- Python `range(start, stop, step)` for a nonzero step: the element
count is at most `(stop - start).natAbs`, so that fuel suffices. -/
def pyRange (start stop step : ℤ) : List ℤ :=
  pyRangeAux stop step ((stop - start).natAbs + 1) start

/-- Exact division of fractions (sign moved onto the numerator). -/
def Frac.div (a b : Frac) : Frac := Frac.mkZ (a.num * (b.den : ℤ)) ((a.den : ℤ) * b.num)

/-- The boundary polygon: its closed exterior ring (last vertex equal to
the first), as shapely exposes it through exterior.coords. -/
structure PolyQ where
  ring : List PointF
  deriving DecidableEq

/-- Consecutive vertex pairs of the ring. -/
def ringPairs (p : PolyQ) : List (PointF × PointF) := p.ring.zip p.ring.tail

/-- Shoelace cross term of one ring edge. -/
def crossTerm (vw : PointF × PointF) : Frac :=
  (vw.1.1.mul vw.2.2).sub (vw.2.1.mul vw.1.2)

/-- Twice the signed shoelace area of the ring. -/
def polySumCross (p : PolyQ) : Frac :=
  (ringPairs p).foldr (fun vw acc => (crossTerm vw).add acc) ⟨0, 1⟩

/-- Area centroid of the polygon (the shapely polygon centroid). -/
def polyCentroid (p : PolyQ) : PointF :=
  let a6 := (Frac.ofInt 3).mul (polySumCross p)
  let sx : Frac := (ringPairs p).foldr
    (fun (vw : PointF × PointF) (acc : Frac) =>
      ((vw.1.1.add vw.2.1).mul (crossTerm vw)).add acc) ⟨0, 1⟩
  let sy : Frac := (ringPairs p).foldr
    (fun (vw : PointF × PointF) (acc : Frac) =>
      ((vw.1.2.add vw.2.2).mul (crossTerm vw)).add acc) ⟨0, 1⟩
  (sx.div a6, sy.div a6)

/-- Value maximum of a list of fractions, first element first (Python max
keeps the earliest maximal element). -/
def listMaxF : List Frac → Frac
  | [] => ⟨0, 1⟩
  | a :: rest => rest.foldl (fun cur new => if Frac.blt cur new then new else cur) a

/-- Value minimum of a list of fractions. -/
def listMinF : List Frac → Frac
  | [] => ⟨0, 1⟩
  | a :: rest => rest.foldl (fun cur new => if Frac.blt new cur then new else cur) a

/-- The squared buffer: the maximum squared distance from the polygon
centroid to a ring vertex (the source takes the maximum distance; maximum
and squaring commute on non-negative values). -/
def polyBufSq (p : PolyQ) : Frac :=
  listMaxF (p.ring.map fun v => sqDistF (polyCentroid p) v)

/-- Bounding-box coordinates of the polygon: extrema over the ring. -/
def ringMinX (p : PolyQ) : Frac := listMinF (p.ring.map (·.1))

def ringMaxX (p : PolyQ) : Frac := listMaxF (p.ring.map (·.1))

def ringMinY (p : PolyQ) : Frac := listMinF (p.ring.map (·.2))

def ringMaxY (p : PolyQ) : Frac := listMaxF (p.ring.map (·.2))

/-- A grid cell as built: its axis-aligned box (minx, miny, maxx, maxy) as
constructed before any rotation, its passable flag and its id. -/
structure CellB where
  box : ℤ × ℤ × ℤ × ℤ
  passable : Bool
  id : ℕ
  deriving DecidableEq

/-- The grid: the cell rows plus the stored cell size and rotation
attributes.  When a rotation is set the source replaces every cell
geometry by its rotation about the boundary centroid; that geometric
replacement is modelled separately over ℝ (see the rotate section), the
boxes kept here are the cells as constructed. -/
structure GridQ where
  cells : List CellB
  cellSize : ℤ
  rotation : Option Frac
  deriving DecidableEq

/-- Failure modes of grid construction.  The source performs no input
validation: `invalidGridSpec` is the spec's designed error and is never
produced; `rangeStepZero` is the untyped ValueError Python range() raises
when the step (cell_size) is zero. -/
inductive BuildErr where
  | invalidGridSpec
  | rangeStepZero
  deriving DecidableEq

/-- Reassign ids 0..n-1 in list order (grid['id'] = range(len(grid))). -/
def reassignIds (cells : List CellB) : List CellB :=
  cells.enum.map fun ic => { ic.2 with id := ic.1 }

/-- The embedding of `VectorGrid.create_vector_grid` (together with the
constructor argument handling of `VectorGrid.__init__`).  `obstacleTest`
models the obstacle set: it holds iff the given cell box intersects some
obstacle polygon. -/
def createVectorGrid (poly : PolyQ) (cellSize : ℤ) ( rotation : Option Frac)
    (obstacleTest : Option ((ℤ × ℤ × ℤ × ℤ) → Bool)) : Except BuildErr GridQ :=
  if cellSize = 0 then .error .rangeStepZero
  else
    let bufSq := polyBufSq poly
    let xs := pyRange (truncSubSqrt (ringMinX poly) bufSq)
      (truncAddSqrt (ringMaxX poly) bufSq) cellSize
    let ys := pyRange (truncSubSqrt (ringMinY poly) bufSq)
      (truncAddSqrt (ringMaxY poly) bufSq) cellSize
    let boxes := xs.flatMap fun x => ys.map fun y => (x, y, x + cellSize, y + cellSize)
    let cells : List CellB := boxes.map fun b =>
      { box := b,
        passable := match obstacleTest with
          | some f => !(f b)
          | none => true,
        id := 0 }
    .ok { cells := reassignIds cells, cellSize := cellSize, rotation := rotation }

/-- The embedding of `VectorGrid.clip`: `gpd.clip` replaces the cell list
by the clipped surviving rows (cells with empty intersection dropped,
geometries truncated, order as produced by the library, modelled by the
`clipTransform` parameter), then ids are reassigned 0..n-1. -/
def GridQ.clip (g : GridQ) (clipTransform : List CellB → List CellB) : GridQ :=
  { g with cells := reassignIds (clipTransform g.cells) }

/-- The embedding of `VectorGrid.intersect`: keep the rows whose geometry
intersects the boundary polygon (the geometric test is the `keep`
parameter), in order, then reassign ids 0..n-1. -/
def GridQ.intersectWith (g : GridQ) (keep : CellB → Bool) : GridQ :=
  { g with cells := reassignIds (g.cells.filter keep) }

/-- Centroid of an axis-aligned cell box. -/
def boxCentroid (b : ℤ × ℤ × ℤ × ℤ) : PointF :=
  (⟨b.1 + b.2.2.1, 2⟩, ⟨b.2.1 + b.2.2.2, 2⟩)

/-- The grid rows as seen by the locator and the graph builder:
id, passable flag and geometry centroid (for unrotated box geometry). -/
def GridQ.locCells (g : GridQ) : List Cell :=
  g.cells.map fun c => ⟨c.id, c.passable, boxCentroid c.box⟩

/-- The 100 x 100 unit square boundary of the spec's concrete scenario, as
its closed exterior ring. -/
def sq100 : PolyQ :=
  ⟨[(⟨0, 1⟩, ⟨0, 1⟩), (⟨100, 1⟩, ⟨0, 1⟩), (⟨100, 1⟩, ⟨100, 1⟩),
    (⟨0, 1⟩, ⟨100, 1⟩), (⟨0, 1⟩, ⟨0, 1⟩)]⟩

/-- The 2 x 2 square boundary used for small construction witnesses. -/
def tinyPoly : PolyQ :=
  ⟨[(⟨0, 1⟩, ⟨0, 1⟩), (⟨2, 1⟩, ⟨0, 1⟩), (⟨2, 1⟩, ⟨2, 1⟩), (⟨0, 1⟩, ⟨2, 1⟩),
    (⟨0, 1⟩, ⟨0, 1⟩)]⟩

/-- The grid `tinyPoly` builds at cell_size 100: one full cell. -/
def tinyGrid : GridQ :=
  { cells := [{ box := (-1, -1, 99, 99), passable := true, id := 0 }],
    cellSize := 100, rotation := none }

/-- A small two-row grid used as the re-indexing witness input. -/
def idsWitnessGrid : GridQ :=
  { cells := [{ box := (0, 0, 1, 1), passable := true, id := 5 },
              { box := (1, 0, 2, 1), passable := false, id := 9 }],
    cellSize := 1, rotation := none }

/-- Well-formedness of the ring coordinates of a polygon. -/
def PolyQ.RingWF (p : PolyQ) : Prop := ∀ v ∈ p.ring, v.1.WF ∧ v.2.WF

instance (p : PolyQ) : Decidable p.RingWF :=
  inferInstanceAs (Decidable (∀ v ∈ p.ring, v.1.WF ∧ v.2.WF))

/-! ## Rotation (VectorGrid.rotate)

The source's rotate method overwrites the stored rotation attribute with
the new angle and applies a shapely rotation by that angle (degrees,
counter-clockwise positive) about the boundary polygon's centroid to the
current cell geometries; the boundary polygon itself is never mutated, so
the rotation origin is the same on every call.  Geometry here is a list
of vertex points over ℝ. -/

/-- A grid row with its (possibly rotated) vertex-list geometry. -/
structure CellR where
  geom : List (ℝ × ℝ)
  passable : Bool
  id : ℕ

/-- The grid state seen by VectorGrid.rotate: the rows, the boundary
centroid used as rotation origin and the stored rotation attribute. -/
structure VGridR where
  cells : List CellR
  origin : ℝ × ℝ
  rotation : Option ℝ

/-- Rotation of a point by an angle in degrees about an origin
(counter-clockwise positive, shapely affinity.rotate with
use_radians False). -/
noncomputable def rotatePointDeg (θ : ℝ) (o p : ℝ × ℝ) : ℝ × ℝ :=
  (o.1 + (p.1 - o.1) * Real.cos (θ * Real.pi / 180)
     - (p.2 - o.2) * Real.sin (θ * Real.pi / 180),
   o.2 + (p.1 - o.1) * Real.sin (θ * Real.pi / 180)
     + (p.2 - o.2) * Real.cos (θ * Real.pi / 180))

/-- The embedding of `VectorGrid.rotate`. -/
noncomputable def VGridR.rotate (g : VGridR) (θ : ℝ) : VGridR :=
  { g with
    rotation := some θ
    cells := g.cells.map fun c =>
      { c with geom := c.geom.map (rotatePointDeg θ g.origin) } }

section FracLemmas

lemma Frac.toR_eq_toQ (a : Frac) : a.toR = (a.toQ : ℝ) := by
  simp [Frac.toR, Frac.toQ]

lemma Frac.WF.den_ne_zero {a : Frac} (h : a.WF) : (a.den : ℚ) ≠ 0 := by
  have : a.den ≠ 0 := Nat.pos_iff_ne_zero.mp h
  exact_mod_cast this

lemma Frac.add_WF {a b : Frac} (ha : a.WF) (hb : b.WF) : (a.add b).WF := by
  simpa [Frac.add, Frac.WF] using Nat.mul_pos ha hb

lemma Frac.sub_WF {a b : Frac} (ha : a.WF) (hb : b.WF) : (a.sub b).WF := by
  simpa [Frac.sub, Frac.WF] using Nat.mul_pos ha hb

lemma Frac.mul_WF {a b : Frac} (ha : a.WF) (hb : b.WF) : (a.mul b).WF := by
  simpa [Frac.mul, Frac.WF] using Nat.mul_pos ha hb

lemma Frac.neg_WF {a : Frac} (ha : a.WF) : a.neg.WF := ha

lemma Frac.toQ_add {a b : Frac} (ha : a.WF) (hb : b.WF) :
    (a.add b).toQ = a.toQ + b.toQ := by
  have h1 := ha.den_ne_zero
  have h2 := hb.den_ne_zero
  simp only [Frac.add, Frac.toQ]
  push_cast
  field_simp

lemma Frac.toQ_sub {a b : Frac} (ha : a.WF) (hb : b.WF) :
    (a.sub b).toQ = a.toQ - b.toQ := by
  have h1 := ha.den_ne_zero
  have h2 := hb.den_ne_zero
  simp only [Frac.sub, Frac.toQ]
  push_cast
  field_simp
  ring

lemma Frac.toQ_mul {a b : Frac} (ha : a.WF) (hb : b.WF) :
    (a.mul b).toQ = a.toQ * b.toQ := by
  have h1 := ha.den_ne_zero
  have h2 := hb.den_ne_zero
  simp only [Frac.mul, Frac.toQ]
  push_cast
  field_simp

lemma Frac.toQ_neg (a : Frac) : a.neg.toQ = -a.toQ := by
  simp [Frac.neg, Frac.toQ, neg_div]

lemma Frac.blt_iff {a b : Frac} (ha : a.WF) (hb : b.WF) :
    a.blt b = true ↔ a.toQ < b.toQ := by
  have h1 : (0:ℚ) < (a.den : ℚ) := by exact_mod_cast ha
  have h2 : (0:ℚ) < (b.den : ℚ) := by exact_mod_cast hb
  simp only [Frac.blt, Frac.toQ, decide_eq_true_eq]
  rw [div_lt_div_iff₀ h1 h2]
  exact_mod_cast Iff.rfl

lemma Frac.ble_iff {a b : Frac} (ha : a.WF) (hb : b.WF) :
    a.ble b = true ↔ a.toQ ≤ b.toQ := by
  have h1 : (0:ℚ) < (a.den : ℚ) := by exact_mod_cast ha
  have h2 : (0:ℚ) < (b.den : ℚ) := by exact_mod_cast hb
  simp only [Frac.ble, Frac.toQ, decide_eq_true_eq]
  rw [div_le_div_iff₀ h1 h2]
  exact_mod_cast Iff.rfl

lemma Frac.eqb_iff {a b : Frac} (ha : a.WF) (hb : b.WF) :
    a.eqb b = true ↔ a.toQ = b.toQ := by
  have h1 := ha.den_ne_zero
  have h2 := hb.den_ne_zero
  simp only [Frac.eqb, Frac.toQ, beq_iff_eq]
  rw [div_eq_div_iff h1 h2]
  exact_mod_cast Iff.rfl

lemma Frac.not_blt {a b : Frac} (ha : a.WF) (hb : b.WF) (h : a.blt b = false) :
    b.toQ ≤ a.toQ := by
  by_contra hc
  have := (Frac.blt_iff ha hb).mpr (lt_of_not_le hc)
  rw [h] at this
  cases this

lemma sqDistF_WF {p q : PointF} (hp1 : p.1.WF) (hp2 : p.2.WF)
    (hq1 : q.1.WF) (hq2 : q.2.WF) : (sqDistF p q).WF := by
  exact Frac.add_WF (Frac.mul_WF (Frac.sub_WF hp1 hq1) (Frac.sub_WF hp1 hq1))
    (Frac.mul_WF (Frac.sub_WF hp2 hq2) (Frac.sub_WF hp2 hq2))

lemma sqDistF_toQ {p q : PointF} (hp1 : p.1.WF) (hp2 : p.2.WF)
    (hq1 : q.1.WF) (hq2 : q.2.WF) :
    (sqDistF p q).toQ = (p.1.toQ - q.1.toQ)^2 + (p.2.toQ - q.2.toQ)^2 := by
  unfold sqDistF
  rw [Frac.toQ_add (Frac.mul_WF (Frac.sub_WF hp1 hq1) (Frac.sub_WF hp1 hq1))
        (Frac.mul_WF (Frac.sub_WF hp2 hq2) (Frac.sub_WF hp2 hq2)),
      Frac.toQ_mul (Frac.sub_WF hp1 hq1) (Frac.sub_WF hp1 hq1),
      Frac.toQ_mul (Frac.sub_WF hp2 hq2) (Frac.sub_WF hp2 hq2),
      Frac.toQ_sub hp1 hq1, Frac.toQ_sub hp2 hq2]
  ring

lemma sqDistF_toQ_nonneg {p q : PointF} (hp1 : p.1.WF) (hp2 : p.2.WF)
    (hq1 : q.1.WF) (hq2 : q.2.WF) : 0 ≤ (sqDistF p q).toQ := by
  rw [sqDistF_toQ hp1 hp2 hq1 hq2]
  positivity

lemma sqDistF_self_toQ {p : PointF} (hp1 : p.1.WF) (hp2 : p.2.WF) :
    (sqDistF p p).toQ = 0 := by
  rw [sqDistF_toQ hp1 hp2 hp1 hp2]
  ring

lemma sqDistF_eq_zero_iff {p q : PointF} (hp1 : p.1.WF) (hp2 : p.2.WF)
    (hq1 : q.1.WF) (hq2 : q.2.WF) :
    (sqDistF p q).toQ = 0 ↔ (p.1.toQ = q.1.toQ ∧ p.2.toQ = q.2.toQ) := by
  rw [sqDistF_toQ hp1 hp2 hq1 hq2]
  constructor
  · intro h
    constructor
    · nlinarith [sq_nonneg (p.1.toQ - q.1.toQ), sq_nonneg (p.2.toQ - q.2.toQ)]
    · nlinarith [sq_nonneg (p.1.toQ - q.1.toQ), sq_nonneg (p.2.toQ - q.2.toQ)]
  · rintro ⟨h1, h2⟩
    rw [h1, h2]
    ring

lemma pointEq_iff {p q : PointF} (hp1 : p.1.WF) (hp2 : p.2.WF)
    (hq1 : q.1.WF) (hq2 : q.2.WF) :
    pointEq p q = true ↔ (p.1.toQ = q.1.toQ ∧ p.2.toQ = q.2.toQ) := by
  simp [pointEq, Frac.eqb_iff hp1 hq1, Frac.eqb_iff hp2 hq2]

end FracLemmas

/-! ## Correctness of the path-finder model -/

section PathFinder

variable {α : Type}

lemma argmin_fold_split [LinearOrder α] {γ : Type} (f : γ → α) :
    ∀ (xs : List γ) (b : γ),
      ∃ l₁ l₂,
        b :: xs = l₁ ++ (List.foldl (fun best y => if f y < f best then y else best) b xs) :: l₂ ∧
        (∀ y ∈ l₁, f (List.foldl (fun best y => if f y < f best then y else best) b xs) < f y) ∧
        (∀ y ∈ l₂, f (List.foldl (fun best y => if f y < f best then y else best) b xs) ≤ f y) := by
  intro xs
  induction xs with
  | nil =>
    intro b
    exact ⟨[], [], rfl, by simp, by simp⟩
  | cons y ys ih =>
    intro b
    by_cases h : f y < f b
    · have hstep : List.foldl (fun best z => if f z < f best then z else best) b (y :: ys)
          = List.foldl (fun best z => if f z < f best then z else best) y ys := by
        simp only [List.foldl_cons, if_pos h]
      rw [hstep]
      obtain ⟨l₁, l₂, heq, hlt, hle⟩ := ih y
      generalize hR : List.foldl (fun best z => if f z < f best then z else best) y ys = r at heq hlt hle ⊢
      have hrb : f r < f b := by
        rcases l₁ with _ | ⟨z, l₁'⟩
        · have hyr : y = r := by simpa using congrArg List.head? heq
          rw [← hyr]; exact h
        · have hyz : y = z := by simpa using congrArg List.head? heq
          exact lt_trans (hlt z (by simp)) (by rw [← hyz]; exact h)
      refine ⟨b :: l₁, l₂, by simp [heq], ?_, hle⟩
      intro z hz
      rcases List.mem_cons.mp hz with hz | hz
      · rw [hz]; exact hrb
      · exact hlt z hz
    · have hstep : List.foldl (fun best z => if f z < f best then z else best) b (y :: ys)
          = List.foldl (fun best z => if f z < f best then z else best) b ys := by
        simp only [List.foldl_cons, if_neg h]
      rw [hstep]
      obtain ⟨l₁, l₂, heq, hlt, hle⟩ := ih b
      generalize hR : List.foldl (fun best z => if f z < f best then z else best) b ys = r at heq hlt hle ⊢
      rcases l₁ with _ | ⟨z, l₁'⟩
      · have hbr : b = r := by simpa using congrArg List.head? heq
        have hys : ys = l₂ := by simpa [← hbr] using heq
        refine ⟨[], y :: ys, by simp [← hbr], by simp, ?_⟩
        intro z hz
        rcases List.mem_cons.mp hz with hz | hz
        · rw [hz, ← hbr]; exact le_of_not_lt h
        · rw [← hbr]
          have := hle z (by rw [← hys]; exact hz)
          rw [← hbr] at this; exact this
      · have hzb : b = z := by simpa using congrArg List.head? heq
        have hys : ys = l₁' ++ r :: l₂ := by
          have h2 := congrArg List.tail heq
          simpa using h2
        have hrb : f r < f b := by
          rw [hzb]; exact hlt z (by simp)
        refine ⟨b :: y :: l₁', l₂, by simp [hys], ?_, hle⟩
        intro w hw
        rcases List.mem_cons.mp hw with hw | hw
        · rw [hw]; exact hrb
        · rcases List.mem_cons.mp hw with hw | hw
          · rw [hw]; exact lt_of_lt_of_le hrb (le_of_not_lt h)
          · exact hlt w (by simp [hw])

lemma argminBy_split [LinearOrder α] {γ : Type} (f : γ → α) (l : List γ) (x : γ)
    (h : argminBy f l = some x) :
    ∃ l₁ l₂, l = l₁ ++ x :: l₂ ∧ (∀ y ∈ l₁, f x < f y) ∧ (∀ y ∈ l₂, f x ≤ f y) := by
  rcases l with _ | ⟨b, xs⟩
  · simp [argminBy] at h
  · have hx : xs.foldl (fun best y => if f y < f best then y else best) b = x := by
      simpa [argminBy] using h
    obtain ⟨l₁, l₂, heq, hlt, hle⟩ := argmin_fold_split f xs b
    rw [hx] at heq hlt hle
    exact ⟨l₁, l₂, heq, hlt, hle⟩

lemma argminBy_mem [LinearOrder α] {γ : Type} (f : γ → α) (l : List γ) (x : γ)
    (h : argminBy f l = some x) : x ∈ l := by
  obtain ⟨l₁, l₂, heq, -, -⟩ := argminBy_split f l x h
  rw [heq]; simp

lemma argminBy_min [LinearOrder α] {γ : Type} (f : γ → α) (l : List γ) (x : γ)
    (h : argminBy f l = some x) : ∀ y ∈ l, f x ≤ f y := by
  obtain ⟨l₁, l₂, heq, hlt, hle⟩ := argminBy_split f l x h
  intro y hy
  rw [heq] at hy
  rcases List.mem_append.mp hy with hy | hy
  · exact le_of_lt (hlt y hy)
  · rcases List.mem_cons.mp hy with hy | hy
    · rw [hy]
    · exact hle y hy

lemma argminBy_eq_none_iff [LinearOrder α] {γ : Type} (f : γ → α) (l : List γ) :
    argminBy f l = none ↔ l = [] := by
  rcases l with _ | ⟨b, xs⟩ <;> simp [argminBy]

lemma edgeWeight?_mem (g : Graph α) {u v : ℕ} {w : α}
    (h : g.edgeWeight? u v = some w) :
    (u, v, w) ∈ g.edges ∨ (v, u, w) ∈ g.edges := by
  unfold Graph.edgeWeight? at h
  obtain ⟨e, he, hw⟩ := Option.map_eq_some'.mp h
  have hmem := List.mem_of_find?_eq_some he
  have hpred := List.find?_some he
  rcases Bool.or_eq_true_iff.mp hpred with hp | hp <;>
    obtain ⟨h1, h2⟩ := Bool.and_eq_true_iff.mp hp
  · left
    have e1 : e.1 = u := eq_of_beq h1
    have e2 : e.2.1 = v := eq_of_beq h2
    have : e = (u, v, w) := by
      rcases e with ⟨a, b, c⟩
      simp_all
    rw [← this]; exact hmem
  · right
    have e1 : e.1 = v := eq_of_beq h1
    have e2 : e.2.1 = u := eq_of_beq h2
    have : e = (v, u, w) := by
      rcases e with ⟨a, b, c⟩
      simp_all
    rw [← this]; exact hmem

lemma find?_pointwise {β : Type} (p q : β → Bool) (h : ∀ x, p x = q x) :
    ∀ l : List β, l.find? p = l.find? q := by
  intro l
  induction l with
  | nil => rfl
  | cons x xs ih => simp only [List.find?_cons, h x, ih]

lemma edgeWeight?_symm (g : Graph α) (u v : ℕ) :
    g.edgeWeight? u v = g.edgeWeight? v u := by
  unfold Graph.edgeWeight?
  rw [find?_pointwise _ _ (fun e => Bool.or_comm _ _) g.edges]

lemma hasEdge_mem_nodes (g : Graph α)
    (Hwf : ∀ e ∈ g.edges, e.1 ∈ g.nodes ∧ e.2.1 ∈ g.nodes) {u v : ℕ}
    (h : g.hasEdge u v = true) : u ∈ g.nodes ∧ v ∈ g.nodes := by
  unfold Graph.hasEdge at h
  obtain ⟨w, hw⟩ := Option.isSome_iff_exists.mp h
  rcases edgeWeight?_mem g hw with hm | hm
  · exact ⟨(Hwf _ hm).1, (Hwf _ hm).2⟩
  · exact ⟨(Hwf _ hm).2, (Hwf _ hm).1⟩

lemma path_mem_nodes (g : Graph α)
    (Hwf : ∀ e ∈ g.edges, e.1 ∈ g.nodes ∧ e.2.1 ∈ g.nodes) :
    ∀ (p : List ℕ) (u : ℕ), p.head? = some u → u ∈ g.nodes →
      p.Chain' (fun a b => g.hasEdge a b = true) → ∀ x ∈ p, x ∈ g.nodes := by
  intro p
  induction p with
  | nil => intro u h; simp at h
  | cons a q ih =>
    intro u hhead hu hchain x hx
    have hau : a = u := by simpa using hhead
    rcases List.mem_cons.mp hx with hx | hx
    · rw [hx, hau]; exact hu
    · rcases q with _ | ⟨b, q'⟩
      · simp at hx
      · have hedge : g.hasEdge a b = true := (List.chain'_cons.mp hchain).1
        have hb : b ∈ g.nodes := (hasEdge_mem_nodes g Hwf hedge).2
        exact ih b rfl hb (List.chain'_cons.mp hchain).2 x hx

lemma extendPaths_sound (g : Graph α) (t : ℕ) :
    ∀ (fuel u : ℕ) (visited : List ℕ) (q : List ℕ),
      q ∈ extendPaths g t fuel u visited →
      q.head? = some u ∧ q.getLast? = some t ∧
        q.Chain' (fun a b => g.hasEdge a b = true) := by
  intro fuel
  induction fuel with
  | zero => intro u visited q h; simp [extendPaths] at h
  | succ f ih =>
    intro u visited q h
    unfold extendPaths at h
    by_cases hut : (u == t) = true
    · rw [if_pos hut] at h
      have hq : q = [t] := by simpa using h
      have hu : u = t := eq_of_beq hut
      subst hq hu
      exact ⟨rfl, rfl, List.chain'_singleton u⟩
    · rw [if_neg hut] at h
      obtain ⟨v, hv, hq⟩ := List.mem_flatMap.mp h
      obtain ⟨q', hq', hqq⟩ := List.mem_map.mp hq
      obtain ⟨hhead, hlast, hchain⟩ := ih v (u :: visited) q' hq'
      have hvnbr : v ∈ g.nbrs u := (List.mem_filter.mp hv).1
      have hedge : g.hasEdge u v = true := (List.mem_filter.mp hvnbr).2
      subst hqq
      refine ⟨rfl, ?_, ?_⟩
      · rcases q' with _ | ⟨b, q''⟩
        · simp at hhead
        · rw [List.getLast?_cons_cons]; exact hlast
      · rw [List.chain'_cons']
        refine ⟨?_, hchain⟩
        intro y hy
        rcases q' with _ | ⟨b, q''⟩
        · simp at hy
        · have hbv : b = v := by simpa using hhead
          have hyb : b = y := by simpa using hy
          rw [← hyb, hbv]; exact hedge

lemma extendPaths_complete (g : Graph α) (t : ℕ) :
    ∀ (p : List ℕ) (fuel u : ℕ) (visited : List ℕ),
      p.head? = some u → p.getLast? = some t →
      p.Chain' (fun a b => g.hasEdge a b = true) →
      p.Nodup → (∀ x ∈ p, x ∈ g.nodeList) → (∀ x ∈ p, x ∉ visited) →
      p.length ≤ fuel →
      p ∈ extendPaths g t fuel u visited := by
  intro p
  induction p with
  | nil => intro fuel u visited h; simp at h
  | cons a q ih =>
    intro fuel u visited hhead hlast hchain hnodup hmem hvis hlen
    have hau : a = u := by simpa using hhead
    subst hau
    rcases fuel with _ | f
    · simp at hlen
    rcases q with _ | ⟨b, q'⟩
    · have hat : a = t := by simpa using hlast
      subst hat
      unfold extendPaths
      rw [if_pos (by simp)]
      simp
    · have hat : (a == t) = false := by
        rw [beq_eq_false_iff_ne]
        intro hat
        have htmem : t ∈ b :: q' :=
          List.mem_of_mem_getLast? (by simpa using hlast)
        rw [← hat] at htmem
        exact (List.nodup_cons.mp hnodup).1 htmem
      unfold extendPaths
      rw [if_neg (by simp [hat])]
      apply List.mem_flatMap.mpr
      refine ⟨b, ?_, ?_⟩
      · apply List.mem_filter.mpr
        constructor
        · apply List.mem_filter.mpr
          exact ⟨hmem b (by simp), (List.chain'_cons.mp hchain).1⟩
        · simpa using hvis b (by simp)
      · apply List.mem_map.mpr
        refine ⟨b :: q', ?_, rfl⟩
        apply ih f b (a :: visited) rfl (by simpa using hlast)
          (List.chain'_cons.mp hchain).2 (List.nodup_cons.mp hnodup).2
          (fun x hx => hmem x (by simp [hx]))
          ?_ (by simpa using hlen)
        intro x hx
        simp only [List.mem_cons, not_or]
        exact ⟨fun hxa => (List.nodup_cons.mp hnodup).1 (hxa ▸ hx),
          hvis x (by simp [hx])⟩

lemma pathWeight_nonneg [LinearOrderedAddCommMonoid α] (g : Graph α)
    (Hw : ∀ e ∈ g.edges, 0 ≤ e.2.2) : ∀ p : List ℕ, 0 ≤ pathWeight g p := by
  intro p
  induction p with
  | nil => simp [pathWeight]
  | cons u q ih =>
    rcases q with _ | ⟨v, rest⟩
    · simp [pathWeight]
    · unfold pathWeight
      apply add_nonneg _ ih
      rcases h : g.edgeWeight? u v with _ | w
      · simp
      · simp only [Option.getD_some]
        rcases edgeWeight?_mem g h with hm | hm
        · exact Hw _ hm
        · exact Hw _ hm

lemma pathWeight_append [AddCommMonoid α] (g : Graph α) :
    ∀ (xs : List ℕ) (a : ℕ) (ys : List ℕ),
      pathWeight g (xs ++ a :: ys) = pathWeight g (xs ++ [a]) + pathWeight g (a :: ys) := by
  intro xs
  induction xs with
  | nil =>
    intro a ys
    simp [pathWeight]
  | cons x xs' ih =>
    intro a ys
    rcases xs' with _ | ⟨z, xs''⟩
    · show pathWeight g (x :: a :: ys) = pathWeight g (x :: [a]) + pathWeight g (a :: ys)
      unfold pathWeight
      rcases ys with _ | ⟨y, ys'⟩ <;> simp [pathWeight, add_assoc]
    · show pathWeight g (x :: z :: (xs'' ++ a :: ys))
          = pathWeight g (x :: z :: (xs'' ++ [a])) + pathWeight g (a :: ys)
      have h1 : pathWeight g (x :: z :: (xs'' ++ a :: ys))
          = (g.edgeWeight? x z).getD 0 + pathWeight g (z :: (xs'' ++ a :: ys)) := rfl
      have h2 : pathWeight g (x :: z :: (xs'' ++ [a]))
          = (g.edgeWeight? x z).getD 0 + pathWeight g (z :: (xs'' ++ [a])) := rfl
      rw [h1, h2]
      have h3 := ih a ys
      show (g.edgeWeight? x z).getD 0 + pathWeight g ((z :: xs'') ++ a :: ys) = _
      rw [h3]
      rw [add_assoc]
      rfl

lemma exists_dup_split {l : List ℕ} (h : ¬ l.Nodup) :
    ∃ (l₁ : List ℕ) (a : ℕ) (l₂ l₃ : List ℕ), l = l₁ ++ a :: (l₂ ++ a :: l₃) := by
  induction l with
  | nil => exact absurd List.nodup_nil h
  | cons x xs ih =>
    by_cases hx : x ∈ xs
    · obtain ⟨s, t, hst⟩ := List.append_of_mem hx
      exact ⟨[], x, s, t, by simp [hst]⟩
    · have : ¬ xs.Nodup := by
        intro hn
        exact h (List.nodup_cons.mpr ⟨hx, hn⟩)
      obtain ⟨l₁, a, l₂, l₃, heq⟩ := ih this
      exact ⟨x :: l₁, a, l₂, l₃, by simp [heq]⟩

lemma isPathFrom_shortcut [LinearOrderedAddCommMonoid α] (g : Graph α)
    (Hw : ∀ e ∈ g.edges, 0 ≤ e.2.2) (s t : ℕ)
    (l₁ : List ℕ) (a : ℕ) (l₂ l₃ : List ℕ)
    (hp : IsPathFrom g s t (l₁ ++ a :: (l₂ ++ a :: l₃))) :
    IsPathFrom g s t (l₁ ++ a :: l₃) ∧
      pathWeight g (l₁ ++ a :: l₃) ≤ pathWeight g (l₁ ++ a :: (l₂ ++ a :: l₃)) := by
  obtain ⟨hhead, hlast, hchain⟩ := hp
  have hassoc : l₁ ++ a :: (l₂ ++ a :: l₃) = l₁ ++ ((a :: l₂) ++ (a :: l₃)) := by simp
  constructor
  · refine ⟨?_, ?_, ?_⟩
    · rcases l₁ with _ | ⟨x, l₁'⟩ <;> simpa using hhead
    · have h1 : a :: (l₂ ++ a :: l₃) = (a :: l₂) ++ (a :: l₃) := by simp
      rw [List.getLast?_append, h1, List.getLast?_append] at hlast
      rw [List.getLast?_append]
      rcases hl3 : (a :: l₃).getLast? with _ | z
      · simp at hl3
      · rw [hl3] at hlast
        exact hlast
    · rw [hassoc] at hchain
      rw [List.chain'_append] at hchain ⊢
      obtain ⟨hc1, hc2, hlink⟩ := hchain
      rw [List.chain'_append] at hc2
      refine ⟨hc1, hc2.2.1, ?_⟩
      intro x hx y hy
      exact hlink x hx y (by simpa using hy)
  · have w1 : pathWeight g (l₁ ++ a :: (l₂ ++ a :: l₃))
        = pathWeight g (l₁ ++ [a]) + pathWeight g (a :: (l₂ ++ a :: l₃)) :=
      pathWeight_append g l₁ a (l₂ ++ a :: l₃)
    have w2 : pathWeight g (a :: (l₂ ++ a :: l₃))
        = pathWeight g ((a :: l₂) ++ [a]) + pathWeight g (a :: l₃) :=
      pathWeight_append g (a :: l₂) a l₃
    have w3 : pathWeight g (l₁ ++ a :: l₃)
        = pathWeight g (l₁ ++ [a]) + pathWeight g (a :: l₃) :=
      pathWeight_append g l₁ a l₃
    rw [w1, w2, w3]
    have hmid : 0 ≤ pathWeight g ((a :: l₂) ++ [a]) := pathWeight_nonneg g Hw _
    calc pathWeight g (l₁ ++ [a]) + pathWeight g (a :: l₃)
        ≤ pathWeight g (l₁ ++ [a]) + (pathWeight g ((a :: l₂) ++ [a]) + pathWeight g (a :: l₃)) := by
          apply add_le_add_left
          exact le_add_of_nonneg_left hmid
      _ = _ := rfl

lemma exists_nodup_path [LinearOrderedAddCommMonoid α] (g : Graph α)
    (Hw : ∀ e ∈ g.edges, 0 ≤ e.2.2) (s t : ℕ) :
    ∀ (n : ℕ) (p : List ℕ), p.length ≤ n → IsPathFrom g s t p →
      ∃ q, IsPathFrom g s t q ∧ q.Nodup ∧ (∀ x ∈ q, x ∈ p) ∧
        pathWeight g q ≤ pathWeight g p := by
  intro n
  induction n with
  | zero =>
    intro p hlen hp
    have : p = [] := List.length_eq_zero.mp (Nat.le_zero.mp hlen)
    rw [this] at hp
    simp [IsPathFrom] at hp
  | succ n ih =>
    intro p hlen hp
    by_cases hnd : p.Nodup
    · exact ⟨p, hp, hnd, fun x hx => hx, le_refl _⟩
    · obtain ⟨l₁, a, l₂, l₃, heq⟩ := exists_dup_split hnd
      subst heq
      obtain ⟨hp', hw'⟩ := isPathFrom_shortcut g Hw s t l₁ a l₂ l₃ hp
      have hlen' : (l₁ ++ a :: l₃).length ≤ n := by
        simp only [List.length_append, List.length_cons] at hlen ⊢
        omega
      obtain ⟨q, hq, hqnd, hqsub, hqw⟩ := ih (l₁ ++ a :: l₃) hlen' hp'
      refine ⟨q, hq, hqnd, ?_, le_trans hqw hw'⟩
      intro x hx
      have := hqsub x hx
      simp only [List.mem_append, List.mem_cons] at this ⊢
      tauto

lemma nodup_length_le {l L : List ℕ} (hn : l.Nodup) (hsub : ∀ x ∈ l, x ∈ L) :
    l.length ≤ L.length := by
  calc l.length = l.toFinset.card := (List.toFinset_card_of_nodup hn).symm
    _ ≤ L.toFinset.card := by
        apply Finset.card_le_card
        intro x hx
        simp only [List.mem_toFinset] at *
        exact hsub x hx
    _ ≤ L.length := List.toFinset_card_le L

lemma mem_allPathsFound [LinearOrderedAddCommMonoid α] (g : Graph α)
    (Hwf : ∀ e ∈ g.edges, e.1 ∈ g.nodes ∧ e.2.1 ∈ g.nodes)
    (Hw : ∀ e ∈ g.edges, 0 ≤ e.2.2)
    {s t : ℕ} {p : List ℕ} (hp : IsPathFrom g s t p) (Hs : s ∈ g.nodes) :
    ∃ q, q ∈ allPathsFound g s t ∧ pathWeight g q ≤ pathWeight g p := by
  obtain ⟨q, hq, hqnd, hqsub, hqw⟩ :=
    exists_nodup_path g Hw s t p.length p (le_refl _) hp
  obtain ⟨hqh, hql, hqc⟩ := hq
  have hqnodes : ∀ x ∈ q, x ∈ g.nodeList := by
    intro x hx
    unfold Graph.nodeList
    rw [List.mem_dedup]
    exact path_mem_nodes g Hwf q s hqh Hs hqc x hx
  have hqlen : q.length ≤ g.nodeList.length + 1 :=
    le_trans (nodup_length_le hqnd hqnodes) (Nat.le_succ _)
  refine ⟨q, ?_, hqw⟩
  exact extendPaths_complete g t q (g.nodeList.length + 1) s [] hqh hql hqc hqnd
    hqnodes (by simp) hqlen

/-- C1: for every graph whose edges connect graph nodes and carry
non-negative weights (as the graphs built by GraphGrid.create_graph do),
and every two node ids joined by some connecting edge sequence,
GraphGrid.find_path returns a path from the start id to the end id whose
total edge weight is at most the total weight of every connecting edge
sequence between the two ids. -/
theorem findPath_optimal {α : Type} [LinearOrderedAddCommMonoid α] (g : Graph α)
    (s t : ℕ)
    (Hwf : ∀ e ∈ g.edges, e.1 ∈ g.nodes ∧ e.2.1 ∈ g.nodes)
    (Hw : ∀ e ∈ g.edges, 0 ≤ e.2.2)
    (Hs : s ∈ g.nodes) (Ht : t ∈ g.nodes)
    (Hex : ∃ p₀, IsPathFrom g s t p₀) :
    ∃ p, findPath g s t = .ok p ∧ IsPathFrom g s t p ∧
      ∀ q, IsPathFrom g s t q → pathWeight g p ≤ pathWeight g q := by
  obtain ⟨p₀, hp₀⟩ := Hex
  obtain ⟨q₀, hq₀mem, -⟩ := mem_allPathsFound g Hwf Hw hp₀ Hs
  rcases hmin : argminBy (pathWeight g) (allPathsFound g s t) with _ | p
  · rw [argminBy_eq_none_iff] at hmin
    rw [hmin] at hq₀mem
    simp at hq₀mem
  · refine ⟨p, ?_, ?_, ?_⟩
    · unfold findPath
      rw [if_pos Hs, if_pos Ht, hmin]
    · have hpmem := argminBy_mem (pathWeight g) _ p hmin
      obtain ⟨h1, h2, h3⟩ := extendPaths_sound g t _ s [] p hpmem
      exact ⟨h1, h2, h3⟩
    · intro q hq
      obtain ⟨q', hq'mem, hq'w⟩ := mem_allPathsFound g Hwf Hw hq Hs
      exact le_trans (argminBy_min (pathWeight g) _ p hmin q' hq'mem) hq'w

/-- A helper witness fact: a graph with no edges has no connecting edge
sequence between two distinct ids. -/
lemma no_path_of_no_edges {α : Type} (g : Graph α) (hE : g.edges = [])
    {s t : ℕ} (hst : s ≠ t) : ∀ p, ¬ IsPathFrom g s t p := by
  rintro p ⟨hh, hl, hc⟩
  rcases p with _ | ⟨x, q⟩
  · simp at hh
  · rcases q with _ | ⟨y, q'⟩
    · have h1 : x = s := by simpa using hh
      have h2 : x = t := by simpa using hl
      exact hst (h1 ▸ h2 ▸ rfl)
    · have hedge : g.hasEdge x y = true := (List.chain'_cons.mp hc).1
      unfold Graph.hasEdge Graph.edgeWeight? at hedge
      rw [hE] at hedge
      simp at hedge

/-- C5: when the start and end ids are both nodes of the graph but no
connecting edge sequence exists, GraphGrid.find_path fails with the typed
no-path error (networkx NetworkXNoPath, the spec's NoPathFound) rather
than returning any result. -/
theorem findPath_noPathFound {α : Type} [LinearOrderedAddCommMonoid α]
    (g : Graph α) (s t : ℕ)
    (Hs : s ∈ g.nodes) (Ht : t ∈ g.nodes)
    (Hnone : ∀ p, ¬ IsPathFrom g s t p) :
    findPath g s t = .error .networkXNoPath := by
  unfold findPath
  rw [if_pos Hs, if_pos Ht]
  rcases hmin : argminBy (pathWeight g) (allPathsFound g s t) with _ | p
  · rfl
  · have hpmem := argminBy_mem (pathWeight g) _ p hmin
    obtain ⟨h1, h2, h3⟩ := extendPaths_sound g t _ s [] p hpmem
    exact absurd ⟨h1, h2, h3⟩ (Hnone p)

end PathFinder

theorem findPath_optimal_witness :
    (∀ e ∈ pathWitnessGraph.edges,
        e.1 ∈ pathWitnessGraph.nodes ∧ e.2.1 ∈ pathWitnessGraph.nodes) ∧
    (∀ e ∈ pathWitnessGraph.edges, 0 ≤ e.2.2) ∧
    IsPathFrom pathWitnessGraph 0 1 [0, 1] ∧
    (∃ p, findPath pathWitnessGraph 0 1 = .ok p ∧ IsPathFrom pathWitnessGraph 0 1 p ∧
      ∀ q, IsPathFrom pathWitnessGraph 0 1 q →
        pathWeight pathWitnessGraph p ≤ pathWeight pathWitnessGraph q) :=
  ⟨by decide, by decide, by decide,
    findPath_optimal pathWitnessGraph 0 1 (by decide) (by decide) (by decide) (by decide)
      ⟨[0, 1], by decide⟩⟩

theorem findPath_noPathFound_witness :
    findPath noPathWitnessGraph 0 1 = .error .networkXNoPath :=
  findPath_noPathFound noPathWitnessGraph 0 1 (by decide) (by decide)
    (no_path_of_no_edges noPathWitnessGraph rfl (by decide))

lemma sqDistF_comm (p q : PointF) : sqDistF p q = sqDistF q p := by
  unfold sqDistF Frac.add Frac.mul Frac.sub
  refine congrArg₂ Frac.mk ?_ ?_ <;> ring_nf

lemma euclDist_comm (p q : PointF) : euclDist p q = euclDist q p := by
  unfold euclDist
  rw [sqDistF_comm]

lemma createGraph_nodes_iff (adjacent : Cell → Cell → Bool) (grid : List Cell) (i : ℕ) :
    i ∈ (createGraph adjacent grid).nodes ↔ ∃ c ∈ grid, c.id = i ∧ c.passable = true := by
  show i ∈ (grid.filter (·.passable)).map (·.id) ↔ _
  rw [List.mem_map]
  constructor
  · rintro ⟨c, hc, hid⟩
    rw [List.mem_filter] at hc
    exact ⟨c, hc.1, hid, hc.2⟩
  · rintro ⟨c, hc, hid, hpass⟩
    exact ⟨c, List.mem_filter.mpr ⟨hc, hpass⟩, hid⟩

lemma nodeCentroid_spec (grid : List Cell) (i : ℕ)
    (h : ∃ c ∈ grid, c.id = i ∧ c.passable = true) :
    ∃ a ∈ grid, a.id = i ∧ a.passable = true ∧ nodeCentroid grid i = a.centroid := by
  obtain ⟨c, hc, hid, hpass⟩ := h
  have hcf : c ∈ grid.filter fun d => d.passable && d.id == i := by
    rw [List.mem_filter]
    exact ⟨hc, by simp [hpass, hid]⟩
  have hne : (grid.filter fun d => d.passable && d.id == i) ≠ [] :=
    List.ne_nil_of_mem hcf
  obtain ⟨a, ha⟩ := Option.isSome_iff_exists.mp
    (List.getLast?_isSome.mpr hne)
  have haf : a ∈ grid.filter fun d => d.passable && d.id == i :=
    List.mem_of_mem_getLast? ha
  rw [List.mem_filter] at haf
  obtain ⟨hag, hap⟩ := haf
  rw [Bool.and_eq_true] at hap
  refine ⟨a, hag, eq_of_beq hap.2, hap.1, ?_⟩
  unfold nodeCentroid
  rw [ha]

lemma createGraph_edges_mem (adjacent : Cell → Cell → Bool) (grid : List Cell)
    {u v : ℕ} {w : ℝ} (h : (u, v, w) ∈ (createGraph adjacent grid).edges) :
    u ≠ v ∧ u ∈ (createGraph adjacent grid).nodes ∧ v ∈ (createGraph adjacent grid).nodes ∧
      ∃ a ∈ grid, ∃ b ∈ grid, a.id = u ∧ b.id = v ∧ a.passable = true ∧ b.passable = true ∧
        w = euclDist a.centroid b.centroid := by
  have hmem : (u, v, w) ∈
      (grid.flatMap fun a =>
        grid.filterMap fun b => if adjacent a b then some (a, b) else none).filterMap
        (fun ab =>
          if ab.1.id ≠ ab.2.id ∧ ab.1.id ∈ (grid.filter (·.passable)).map (·.id) ∧
            ab.2.id ∈ (grid.filter (·.passable)).map (·.id)
          then some (ab.1.id, ab.2.id,
            euclDist (nodeCentroid grid ab.1.id) (nodeCentroid grid ab.2.id))
          else none) := h
  rw [List.mem_filterMap] at hmem
  obtain ⟨ab, hab, hout⟩ := hmem
  rcases hcond : decide (ab.1.id ≠ ab.2.id ∧
      ab.1.id ∈ (grid.filter (·.passable)).map (·.id) ∧
      ab.2.id ∈ (grid.filter (·.passable)).map (·.id)) with _ | _
  · rw [if_neg (of_decide_eq_false hcond)] at hout
    cases hout
  · have hcondp := of_decide_eq_true hcond
    rw [if_pos hcondp] at hout
    simp only [Option.some.injEq, Prod.mk.injEq] at hout
    obtain ⟨h1, h2, h3⟩ := hout
    obtain ⟨hne, hm1, hm2⟩ := hcondp
    have hnodes1 : u ∈ (createGraph adjacent grid).nodes := h1 ▸ hm1
    have hnodes2 : v ∈ (createGraph adjacent grid).nodes := h2 ▸ hm2
    refine ⟨by rw [← h1, ← h2]; exact hne, hnodes1, hnodes2, ?_⟩
    have hex1 : ∃ c ∈ grid, c.id = u ∧ c.passable = true := by
      rw [← createGraph_nodes_iff adjacent]
      exact hnodes1
    have hex2 : ∃ c ∈ grid, c.id = v ∧ c.passable = true := by
      rw [← createGraph_nodes_iff adjacent]
      exact hnodes2
    obtain ⟨a, hag, haid, hap, hac⟩ := nodeCentroid_spec grid u hex1
    obtain ⟨b, hbg, hbid, hbp, hbc⟩ := nodeCentroid_spec grid v hex2
    refine ⟨a, hag, b, hbg, haid, hbid, hap, hbp, ?_⟩
    rw [← h3, h1, h2, hac, hbc]

/-- C2: the graph built from a grid contains a node for an id iff some
grid cell with that id was passable at build time; no edge connects a
node to itself; edge existence is symmetric with equal weight; every edge
joins two passable nodes (no edge touches an impassable cell); and every
edge weight is non-negative and equal to the Euclidean distance between
the centroids of the two cells' geometries. -/
theorem createGraph_invariants (adjacent : Cell → Cell → Bool) (grid : List Cell) :
    (∀ i, i ∈ (createGraph adjacent grid).nodes ↔
        ∃ c ∈ grid, c.id = i ∧ c.passable = true) ∧
    (∀ u w, ¬ (createGraph adjacent grid).Edge u u w) ∧
    (∀ u v w, (createGraph adjacent grid).Edge u v w ↔
        (createGraph adjacent grid).Edge v u w) ∧
    (∀ u v w, (createGraph adjacent grid).Edge u v w →
      u ∈ (createGraph adjacent grid).nodes ∧ v ∈ (createGraph adjacent grid).nodes ∧
      0 ≤ w ∧ ∃ a ∈ grid, ∃ b ∈ grid, a.id = u ∧ b.id = v ∧
        a.passable = true ∧ b.passable = true ∧ w = euclDist a.centroid b.centroid) := by
  refine ⟨createGraph_nodes_iff adjacent grid, ?_, ?_, ?_⟩
  · intro u w hE
    rcases hE with hm | hm <;>
      exact absurd rfl (createGraph_edges_mem adjacent grid hm).1
  · intro u v w
    constructor
    · intro hE
      rcases hE with hm | hm
      · exact Or.inr hm
      · exact Or.inl hm
    · intro hE
      rcases hE with hm | hm
      · exact Or.inr hm
      · exact Or.inl hm
  · intro u v w hE
    rcases hE with hm | hm
    · obtain ⟨hne, h1, h2, a, hag, b, hbg, haid, hbid, hap, hbp, hw⟩ :=
        createGraph_edges_mem adjacent grid hm
      refine ⟨h1, h2, ?_, a, hag, b, hbg, haid, hbid, hap, hbp, hw⟩
      rw [hw]
      exact Real.sqrt_nonneg _
    · obtain ⟨hne, h1, h2, a, hag, b, hbg, haid, hbid, hap, hbp, hw⟩ :=
        createGraph_edges_mem adjacent grid hm
      refine ⟨h2, h1, ?_, b, hbg, a, hag, hbid, haid, hbp, hap, ?_⟩
      · rw [hw]
        exact Real.sqrt_nonneg _
      · rw [hw, euclDist_comm]

theorem createGraph_invariants_witness :
    (0 ∈ (createGraph graphWitnessAdj graphWitnessCells).nodes) ∧
    ¬ (createGraph graphWitnessAdj graphWitnessCells).Edge 0 0 37 :=
  ⟨((createGraph_invariants graphWitnessAdj graphWitnessCells).1 0).mpr
      ⟨⟨0, true, (⟨0, 1⟩, ⟨0, 1⟩)⟩, by simp [graphWitnessCells], rfl, rfl⟩,
    (createGraph_invariants graphWitnessAdj graphWitnessCells).2.1 0 37⟩

lemma cellKeyQ_nonneg (p : PointF) (hp1 : p.1.WF) (hp2 : p.2.WF)
    {c : Cell} (hc : c.WFc) : 0 ≤ cellKeyQ p c :=
  sqDistF_toQ_nonneg hp1 hp2 hc.1 hc.2

lemma euclDist_le_of_keyQ (p : PointF) {c d : Cell}
    (h : cellKeyQ p c ≤ cellKeyQ p d) :
    euclDist p c.centroid ≤ euclDist p d.centroid := by
  unfold euclDist
  apply Real.sqrt_le_sqrt
  rw [Frac.toR_eq_toQ, Frac.toR_eq_toQ]
  exact_mod_cast h

/-- C3 (amended): on a grid with at least one passable cell and pairwise
distinct cell centroids (as grids built by the repository have), for
every point the library's nearest-point query may return (some passable
centroid at minimal distance; the choice among exact ties is
unspecified), closest_cell_id returns the id of a passable cell whose
centroid has minimum Euclidean distance to the query point.  No
lowest-id tie break is performed; but querying the exact centroid of a
passable cell returns that cell's own id whatever the library chooses,
since the zero-distance nearest point is unique. -/
theorem closestCellId_nearest (cells : List Cell) (p nearest : PointF)
    (hp1 : p.1.WF) (hp2 : p.2.WF)
    (hcw : ∀ c ∈ cells, c.WFc)
    (hinj : ∀ c ∈ cells, ∀ d ∈ cells, pointEq c.centroid d.centroid = true → c = d)
    (hnear : IsNearestAmong p ((cells.filter (·.passable)).map (·.centroid)) nearest) :
    ∃ c ∈ cells, c.passable = true ∧
      closestCellIdFrom cells nearest = .ok c.id ∧
      (∀ d ∈ cells, d.passable = true →
        euclDist p c.centroid ≤ euclDist p d.centroid) ∧
      (∀ c' ∈ cells, c'.passable = true → pointEq p c'.centroid = true → c = c') := by
  obtain ⟨hmem, hmin⟩ := hnear
  obtain ⟨d, hdf, hdc⟩ := List.mem_map.mp hmem
  have hdcell : d ∈ cells := (List.mem_filter.mp hdf).1
  have hdpass : d.passable = true := by simpa using (List.mem_filter.mp hdf).2
  have hnw1 : nearest.1.WF := hdc ▸ (hcw d hdcell).1
  have hnw2 : nearest.2.WF := hdc ▸ (hcw d hdcell).2
  have hdsat : pointEq d.centroid nearest = true := by
    rw [hdc]
    simp [pointEq, Frac.eqb]
  obtain ⟨c, hfind⟩ :
      ∃ c, cells.find? (fun c => pointEq c.centroid nearest) = some c := by
    rcases hfe : cells.find? (fun c => pointEq c.centroid nearest) with _ | c
    · exact absurd hdsat (by simpa using List.find?_eq_none.mp hfe d hdcell)
    · exact ⟨c, hfe⟩
  have hc : c ∈ cells := List.mem_of_find?_eq_some hfind
  have hcsat : pointEq c.centroid nearest = true := by
    have := List.find?_some hfind
    simpa using this
  have hq := (pointEq_iff (hcw c hc).1 (hcw c hc).2 hnw1 hnw2).mp hcsat
  have hcd : pointEq c.centroid d.centroid = true := by
    rw [pointEq_iff (hcw c hc).1 (hcw c hc).2 (hcw d hdcell).1 (hcw d hdcell).2, hdc]
    exact hq
  have hceq : c = d := hinj c hc d hdcell hcd
  have hfilterne : cells.filter (·.passable) ≠ [] := by
    intro h0
    rw [h0] at hdf
    simp at hdf
  have hres : closestCellIdFrom cells nearest = .ok c.id := by
    unfold closestCellIdFrom
    rw [if_neg hfilterne, hfind]
  have hkey_cd : cellKeyQ p c = cellKeyQ p d := by
    unfold cellKeyQ
    rw [sqDistF_toQ hp1 hp2 (hcw c hc).1 (hcw c hc).2,
      sqDistF_toQ hp1 hp2 (hcw d hdcell).1 (hcw d hdcell).2, hq.1, hq.2, hdc]
  have hminall : ∀ e ∈ cells, e.passable = true → cellKeyQ p c ≤ cellKeyQ p e := by
    intro e he hep
    have hemem : e.centroid ∈ (cells.filter (·.passable)).map (·.centroid) :=
      List.mem_map_of_mem _ (List.mem_filter.mpr ⟨he, by simp [hep]⟩)
    have hble := (Frac.ble_iff (sqDistF_WF hp1 hp2 hnw1 hnw2)
      (sqDistF_WF hp1 hp2 (hcw e he).1 (hcw e he).2)).mp (hmin e.centroid hemem)
    calc cellKeyQ p c = cellKeyQ p d := hkey_cd
      _ = (sqDistF p nearest).toQ := by unfold cellKeyQ; rw [hdc]
      _ ≤ cellKeyQ p e := hble
  refine ⟨c, hc, hceq ▸ hdpass, hres, ?_, ?_⟩
  · intro e he hep
    exact euclDist_le_of_keyQ p (hminall e he hep)
  · intro c' hc' hc'p hpc
    have hp' := (pointEq_iff hp1 hp2 (hcw c' hc').1 (hcw c' hc').2).mp hpc
    have h0 : cellKeyQ p c' = 0 := by
      unfold cellKeyQ
      rw [sqDistF_toQ hp1 hp2 (hcw c' hc').1 (hcw c' hc').2, hp'.1, hp'.2]
      ring
    have hle : cellKeyQ p c ≤ 0 := h0 ▸ hminall c' hc' hc'p
    have hge : 0 ≤ cellKeyQ p c := cellKeyQ_nonneg p hp1 hp2 (hcw c hc)
    have hco := (sqDistF_eq_zero_iff hp1 hp2 (hcw c hc).1 (hcw c hc).2).mp
      (le_antisymm hle hge)
    have hcc' : pointEq c.centroid c'.centroid = true := by
      rw [pointEq_iff (hcw c hc).1 (hcw c hc).2 (hcw c' hc').1 (hcw c' hc').2]
      exact ⟨hco.1.symm.trans hp'.1, hco.2.symm.trans hp'.2⟩
    exact hinj c hc c' hc' hcc'

theorem closestCellId_nearest_witness :
    ∃ c ∈ locWitnessCells, c.passable = true ∧
      closestCellIdFrom locWitnessCells (⟨0, 1⟩, ⟨0, 1⟩) = .ok c.id ∧
      (∀ d ∈ locWitnessCells, d.passable = true →
        euclDist (⟨1, 1⟩, ⟨0, 1⟩) c.centroid ≤ euclDist (⟨1, 1⟩, ⟨0, 1⟩) d.centroid) ∧
      (∀ c' ∈ locWitnessCells, c'.passable = true →
        pointEq (⟨1, 1⟩, ⟨0, 1⟩) c'.centroid = true → c = c') :=
  closestCellId_nearest locWitnessCells (⟨1, 1⟩, ⟨0, 1⟩) (⟨0, 1⟩, ⟨0, 1⟩)
    (by decide) (by decide) (by decide) (by decide) (by decide)

/-- C3 (counterexample to the claim as stated): two passable cells with
centroids (0,0) and (4,0) are both at distance exactly 2 from the query
point (2,0); the centroid (4,0) of the cell with the higher id 1
satisfies the library's nearest-point contract, and the locator then
returns id 1, not the lowest tied id 0: the lowest-id tie break of the
claim is not implemented by the source. -/
theorem closestCellId_tie_cex :
    IsNearestAmong (⟨2, 1⟩, ⟨0, 1⟩)
      ((tieCells.filter (·.passable)).map (·.centroid)) (⟨4, 1⟩, ⟨0, 1⟩) ∧
    closestCellIdFrom tieCells (⟨4, 1⟩, ⟨0, 1⟩) = .ok 1 ∧
    (1 : ℕ) ≠ 0 := by
  decide


/-- C6 (amended): with zero passable cells the locator fails, but with the
untyped error the geometry library raises for an empty nearest-point
query, not with a typed NoPassableCells error (which the source never
constructs); it never returns an id. -/
theorem closestCellId_zeroPassable (cells : List Cell) (p : PointF)
    (h : cells.filter (·.passable) = []) :
    closestCellId cells p = .error .shapelyEmptyGeometry := by
  unfold closestCellId
  rw [h]
  rfl

theorem closestCellId_noPassable_cex :
    closestCellId impassableCells (⟨1, 1⟩, ⟨1, 1⟩) = .error .shapelyEmptyGeometry ∧
    closestCellId impassableCells (⟨1, 1⟩, ⟨1, 1⟩) ≠ .error .noPassableCells := by
  decide

theorem closestCellId_zeroPassable_witness :
    closestCellId impassableCells (⟨2, 1⟩, ⟨3, 1⟩) = .error .shapelyEmptyGeometry :=
  closestCellId_zeroPassable impassableCells (⟨2, 1⟩, ⟨3, 1⟩) (by decide)

set_option maxRecDepth 8000 in
/-- C7 (counterexample to the claim as stated): on the 100 x 100 square
with cell_size 25, no rotation and no obstacles, construction does not
produce 16 cells (the buffer sqrt 5000 expands the tiled box, giving a
10 x 10 grid), and the nearest cell to (12,12) does not have bounding
square [0,25) x [0,25). -/
theorem square16_cex :
    ((createVectorGrid sq100 25 none none).map fun g => g.cells.length) ≠ .ok 16 ∧
    ((createVectorGrid sq100 25 none none).map fun g =>
      (closestCellId g.locCells (⟨12, 1⟩, ⟨12, 1⟩)).toOption.bind fun i =>
        (g.cells.find? fun c => c.id == i).map (·.box)) ≠ .ok (some (0, 0, 25, 25)) := by
  constructor
  · intro h
    have : (100 : ℕ) = 16 := by
      have h100 : ((createVectorGrid sq100 25 none none).map fun g => g.cells.length)
          = .ok 100 := by decide
      rw [h100] at h
      injection h
    omega
  · intro h
    have h33 : ((createVectorGrid sq100 25 none none).map fun g =>
        (closestCellId g.locCells (⟨12, 1⟩, ⟨12, 1⟩)).toOption.bind fun i =>
          (g.cells.find? fun c => c.id == i).map (·.box)) = .ok (some (5, 5, 30, 30)) := by
      decide
    rw [h33] at h
    have := Option.some.inj (Except.ok.inj h)
    injection this with h1 h2
    exact absurd h1 (by decide)

set_option maxRecDepth 8000 in
/-- C7 (amended): on the 100 x 100 square with cell_size 25, no rotation
and no obstacles, construction produces exactly 100 cells, all passable,
and nearest-cell lookup at (12,12) returns the cell (id 33) whose
bounding square is [5,30) x [5,30). -/
theorem square100_scenario :
    ((createVectorGrid sq100 25 none none).map fun g => g.cells.length) = .ok 100 ∧
    ((createVectorGrid sq100 25 none none).map fun g => g.cells.all (·.passable)) = .ok true ∧
    ((createVectorGrid sq100 25 none none).map fun g =>
      closestCellId g.locCells (⟨12, 1⟩, ⟨12, 1⟩)) = .ok (.ok 33) ∧
    ((createVectorGrid sq100 25 none none).map fun g =>
      (g.cells.find? fun c => c.id == 33).map (·.box)) = .ok (some (5, 5, 30, 30)) := by
  refine ⟨by decide, by decide, by decide, by decide⟩

set_option maxRecDepth 8000 in
/-- C4 (counterexample to the claim as stated): with cell_size = -25 on
the 100 x 100 square boundary, grid construction does not fail with any
typed error; it silently returns a grid with an empty cell list (Python
range with a negative step from a smaller to a larger bound is empty). -/
theorem negativeCellSize_cex :
    createVectorGrid sq100 (-25) none none =
      .ok { cells := [], cellSize := -25, rotation := none } := by
  decide

/-- C4 (amended): grid construction performs no InvalidGridSpec
validation.  With cell_size = 0 it fails with the untyped ValueError that
Python range() raises on a zero step; with every nonzero cell_size
(negative values included) it returns a grid successfully; the boundary
vertex count is never checked; the typed InvalidGridSpec error is never
produced. -/
theorem createVectorGrid_noValidation (poly : PolyQ) (cellSize : ℤ)
    ( rotation : Option Frac) (obstacleTest : Option ((ℤ × ℤ × ℤ × ℤ) → Bool)) :
    ((∃ g, createVectorGrid poly cellSize rotation obstacleTest = .ok g) ↔ cellSize ≠ 0) ∧
    (cellSize = 0 →
      createVectorGrid poly cellSize rotation obstacleTest = .error .rangeStepZero) ∧
    createVectorGrid poly cellSize rotation obstacleTest ≠ .error .invalidGridSpec := by
  unfold createVectorGrid
  by_cases h : cellSize = 0
  · rw [if_pos h]
    refine ⟨⟨?_, ?_⟩, fun _ => rfl, ?_⟩
    · rintro ⟨g, hg⟩
      exact Except.noConfusion hg
    · intro hne
      exact absurd h hne
    · intro hc
      injection hc with h'
      cases h'
  · rw [if_neg h]
    exact ⟨⟨fun _ => h, fun _ => ⟨_, rfl⟩⟩, fun hc => absurd hc h,
      fun hc => Except.noConfusion hc⟩

theorem createVectorGrid_noValidation_witness :
    (∃ g, createVectorGrid sq100 (-25) none none = .ok g) ∧
    createVectorGrid sq100 0 none none = .error .rangeStepZero :=
  ⟨(createVectorGrid_noValidation sq100 (-25) none none).1.mpr (by decide),
   (createVectorGrid_noValidation sq100 0 none none).2.1 rfl⟩

lemma reassignIds_ids (cells : List CellB) :
    (reassignIds cells).map (·.id) = List.range (reassignIds cells).length := by
  unfold reassignIds
  rw [List.map_map, List.length_map]
  have hcomp : ((fun c => c.id) ∘ fun ic => { ic.2 with id := ic.1 } : ℕ × CellB → ℕ)
      = Prod.fst := rfl
  rw [hcomp, List.enum_map_fst, List.enum_length]

/-- C9: cell ids are unique and contiguous 0..n-1 after construction and
after each clip or intersect operation: each of the three reassigns ids
0..n-1 in surviving row order. -/
theorem ids_contiguous (g : GridQ) (clipTransform : List CellB → List CellB)
    (keep : CellB → Bool) (poly : PolyQ) (cellSize : ℤ) ( rotation : Option Frac)
    (obstacleTest : Option ((ℤ × ℤ × ℤ × ℤ) → Bool)) :
    ((g.clip clipTransform).cells.map (·.id) =
      List.range (g.clip clipTransform).cells.length) ∧
    ((g.intersectWith keep).cells.map (·.id) =
      List.range (g.intersectWith keep).cells.length) ∧
    (∀ g', createVectorGrid poly cellSize rotation obstacleTest = .ok g' →
      g'.cells.map (·.id) = List.range g'.cells.length) := by
  refine ⟨reassignIds_ids _, reassignIds_ids _, ?_⟩
  intro g' hg'
  unfold createVectorGrid at hg'
  by_cases h : cellSize = 0
  · rw [if_pos h] at hg'
    exact Except.noConfusion hg'
  · rw [if_neg h] at hg'
    have hrec := Except.ok.inj hg'
    rw [← hrec]
    exact reassignIds_ids _

theorem ids_contiguous_witness :
    ((idsWitnessGrid.clip id).cells.map (·.id) =
      List.range (idsWitnessGrid.clip id).cells.length) ∧
    (createVectorGrid tinyPoly 100 none none = .ok tinyGrid ∧
      tinyGrid.cells.map (·.id) = List.range tinyGrid.cells.length) :=
  ⟨(ids_contiguous idsWitnessGrid id (·.passable) tinyPoly 100 none none).1,
   by decide,
   (ids_contiguous idsWitnessGrid id (·.passable) tinyPoly 100 none none).2.2
     tinyGrid (by decide)⟩

/-! ## Correctness bounds for the exact square-root truncation helpers -/

lemma isqrtAux_spec : ∀ (f n : ℕ), n ≤ f →
    isqrtAux f n * isqrtAux f n ≤ n ∧ n < (isqrtAux f n + 1) * (isqrtAux f n + 1) := by
  intro f
  induction f with
  | zero =>
    intro n hn
    have hn0 : n = 0 := by omega
    subst hn0
    simp [isqrtAux]
  | succ f ih =>
    intro n hn
    by_cases h2 : n < 2
    · have hval : isqrtAux (f + 1) n = n := by
        conv_lhs => unfold isqrtAux
        rw [if_pos h2]
      rw [hval]
      have : n = 0 ∨ n = 1 := by omega
      rcases this with h | h <;> subst h <;> omega
    · have hrec : n / 4 ≤ f := by omega
      obtain ⟨ih1, ih2⟩ := ih (n / 4) hrec
      have hval : isqrtAux (f + 1) n =
          if (2 * isqrtAux f (n / 4) + 1) * (2 * isqrtAux f (n / 4) + 1) ≤ n
          then 2 * isqrtAux f (n / 4) + 1 else 2 * isqrtAux f (n / 4) := by
        conv_lhs => unfold isqrtAux
        rw [if_neg h2]
      rw [hval]
      have h4a : 4 * (n / 4) ≤ n := by omega
      have h4b : n < 4 * (n / 4) + 4 := by omega
      have hs : (2 * isqrtAux f (n / 4)) * (2 * isqrtAux f (n / 4)) ≤ n := by nlinarith
      have hs2 : n < (2 * isqrtAux f (n / 4) + 2) * (2 * isqrtAux f (n / 4) + 2) := by
        nlinarith
      by_cases hb : (2 * isqrtAux f (n / 4) + 1) * (2 * isqrtAux f (n / 4) + 1) ≤ n
      · rw [if_pos hb]
        exact ⟨hb, hs2⟩
      · rw [if_neg hb]
        exact ⟨hs, by omega⟩

lemma isqrt_spec (n : ℕ) :
    isqrt n * isqrt n ≤ n ∧ n < (isqrt n + 1) * (isqrt n + 1) :=
  isqrtAux_spec n n (le_refl n)

lemma Frac.toR_nonneg {r : Frac} (hrn : 0 ≤ r.num) : 0 ≤ r.toR := by
  unfold Frac.toR
  apply div_nonneg
  · exact_mod_cast hrn
  · positivity

lemma ratSqrtFloor_spec (r : Frac) (hr : r.WF) (hrn : 0 ≤ r.num) :
    (ratSqrtFloor r : ℝ) ≤ Real.sqrt r.toR ∧
      Real.sqrt r.toR < ratSqrtFloor r + 1 := by
  have hb : 0 < r.den := hr
  have hbR : (0:ℝ) < (r.den : ℝ) := by exact_mod_cast hb
  have htoR : r.toR = (r.num.toNat : ℝ) / (r.den : ℝ) := by
    unfold Frac.toR
    rw [show ((r.num.toNat : ℕ) : ℝ) = ((r.num.toNat : ℤ) : ℝ) by push_cast; ring,
      Int.toNat_of_nonneg hrn]
  obtain ⟨hs1, hs2⟩ := isqrt_spec (r.num.toNat * r.den)
  have hfb : ratSqrtFloor r * r.den ≤ isqrt (r.num.toNat * r.den) := by
    unfold ratSqrtFloor
    exact Nat.div_mul_le_self _ _
  have hfb2 : isqrt (r.num.toNat * r.den) + 1 ≤ (ratSqrtFloor r + 1) * r.den := by
    apply (Nat.div_lt_iff_lt_mul hb).mp
    unfold ratSqrtFloor
    omega
  have key1 : ratSqrtFloor r ^ 2 * r.den ≤ r.num.toNat := by
    have k1 : (ratSqrtFloor r ^ 2 * r.den) * r.den ≤ r.num.toNat * r.den := by
      calc (ratSqrtFloor r ^ 2 * r.den) * r.den
          = (ratSqrtFloor r * r.den) * (ratSqrtFloor r * r.den) := by ring
        _ ≤ isqrt (r.num.toNat * r.den) * isqrt (r.num.toNat * r.den) :=
            Nat.mul_le_mul hfb hfb
        _ ≤ r.num.toNat * r.den := hs1
    exact Nat.le_of_mul_le_mul_right k1 hb
  have key2 : r.num.toNat < (ratSqrtFloor r + 1) ^ 2 * r.den := by
    have k2 : r.num.toNat * r.den < ((ratSqrtFloor r + 1) ^ 2 * r.den) * r.den := by
      calc r.num.toNat * r.den
          < (isqrt (r.num.toNat * r.den) + 1) * (isqrt (r.num.toNat * r.den) + 1) := hs2
        _ ≤ ((ratSqrtFloor r + 1) * r.den) * ((ratSqrtFloor r + 1) * r.den) :=
            Nat.mul_le_mul hfb2 hfb2
        _ = ((ratSqrtFloor r + 1) ^ 2 * r.den) * r.den := by ring
    exact lt_of_mul_lt_mul_right k2 (Nat.zero_le _)
  constructor
  · rw [Real.le_sqrt (by positivity) (Frac.toR_nonneg hrn), htoR, le_div_iff₀ hbR]
    exact_mod_cast key1
  · rw [Real.sqrt_lt' (by positivity), htoR, div_lt_iff₀ hbR]
    exact_mod_cast key2

lemma ratSqrtCeil_spec (r : Frac) (hr : r.WF) (hrn : 0 ≤ r.num) :
    Real.sqrt r.toR ≤ ratSqrtCeil r ∧ (ratSqrtCeil r : ℝ) < Real.sqrt r.toR + 1 := by
  obtain ⟨h1, h2⟩ := ratSqrtFloor_spec r hr hrn
  have hbR : (0:ℝ) < (r.den : ℝ) := by exact_mod_cast (hr : 0 < r.den)
  by_cases htest : ((ratSqrtFloor r * ratSqrtFloor r : ℕ) : ℤ) * (r.den : ℤ) = r.num
  · have hval : ratSqrtCeil r = ratSqrtFloor r := by
      unfold ratSqrtCeil
      rw [if_pos (beq_iff_eq.mpr (by exact_mod_cast htest))]
    rw [hval]
    have htoR : r.toR = (ratSqrtFloor r : ℝ) ^ 2 := by
      unfold Frac.toR
      rw [← htest]
      push_cast
      field_simp
      ring
    rw [htoR, Real.sqrt_sq (by positivity)]
    exact ⟨le_refl _, by linarith⟩
  · have hval : ratSqrtCeil r = ratSqrtFloor r + 1 := by
      unfold ratSqrtCeil
      rw [if_neg (by
        intro hc
        exact htest (by exact_mod_cast eq_of_beq hc))]
    rw [hval]
    constructor
    · push_cast
      linarith
    · push_cast
      have hne : (ratSqrtFloor r : ℝ) ≠ Real.sqrt r.toR := by
        intro heq
        apply htest
        have hsq : ((ratSqrtFloor r : ℝ)) ^ 2 = r.toR := by
          rw [heq, Real.sq_sqrt (Frac.toR_nonneg hrn)]
        unfold Frac.toR at hsq
        rw [eq_div_iff (ne_of_gt hbR)] at hsq
        have hsq2 : ((ratSqrtFloor r : ℝ)) * (ratSqrtFloor r) * (r.den : ℝ) = r.num := by
          rw [← hsq]; ring
        exact_mod_cast hsq2
      have hlt := lt_of_le_of_ne h1 hne
      linarith

lemma radicand_toR (q r : Frac) :
    (Frac.mk ((q.den : ℤ) ^ 2 * r.num) r.den).toR = (q.den : ℝ) ^ 2 * r.toR := by
  unfold Frac.toR
  push_cast
  ring

lemma floorAddSqrt_spec (q r : Frac) (hq : q.WF) (hr : r.WF) (hrn : 0 ≤ r.num) :
    (floorAddSqrt q r : ℝ) ≤ q.toR + Real.sqrt r.toR ∧
      q.toR + Real.sqrt r.toR < floorAddSqrt q r + 1 := by
  have hd : (0:ℤ) < (q.den : ℤ) := by exact_mod_cast (hq : 0 < q.den)
  have hdR : (0:ℝ) < (q.den : ℝ) := by exact_mod_cast hd
  have hr' : (Frac.mk ((q.den : ℤ) ^ 2 * r.num) r.den).WF := hr
  have hrn' : 0 ≤ (Frac.mk ((q.den : ℤ) ^ 2 * r.num) r.den).num :=
    mul_nonneg (by positivity) hrn
  obtain ⟨hs1, hs2⟩ := ratSqrtFloor_spec _ hr' hrn'
  rw [radicand_toR q r, Real.sqrt_mul (by positivity),
    Real.sqrt_sq (by positivity)] at hs1 hs2
  set s := ratSqrtFloor (Frac.mk ((q.den : ℤ) ^ 2 * r.num) r.den) with hs
  have hdiv := Int.ediv_add_emod (q.num + (s : ℤ)) (q.den : ℤ)
  have hm1 := Int.emod_nonneg (q.num + (s : ℤ)) (ne_of_gt hd)
  have hm2 := Int.emod_lt_of_pos (q.num + (s : ℤ)) hd
  have hzval : floorAddSqrt q r = (q.num + (s : ℤ)) / (q.den : ℤ) := rfl
  set z := (q.num + (s : ℤ)) / (q.den : ℤ) with hz
  have hzl : (q.den : ℤ) * z ≤ q.num + (s : ℤ) := by linarith
  have hzu : q.num + (s : ℤ) < (q.den : ℤ) * (z + 1) := by
    have hexp : (q.den : ℤ) * (z + 1) = (q.den : ℤ) * z + (q.den : ℤ) := by ring
    linarith
  have hzlR : (q.den : ℝ) * (z : ℝ) ≤ (q.num : ℝ) + (s : ℝ) := by exact_mod_cast hzl
  have hzuR : (q.num : ℝ) + (s : ℝ) + 1 ≤ (q.den : ℝ) * ((z : ℝ) + 1) := by
    have : q.num + (s : ℤ) + 1 ≤ (q.den : ℤ) * (z + 1) := by omega
    exact_mod_cast this
  have hqtoR : q.toR = (q.num : ℝ) / (q.den : ℝ) := rfl
  rw [hzval]
  constructor
  · rw [← mul_le_mul_left hdR]
    calc (q.den : ℝ) * (z : ℝ) ≤ (q.num : ℝ) + (s : ℝ) := hzlR
      _ ≤ (q.num : ℝ) + (q.den : ℝ) * Real.sqrt r.toR := by linarith
      _ = (q.den : ℝ) * (q.toR + Real.sqrt r.toR) := by
          rw [hqtoR]; field_simp; ring
  · rw [← mul_lt_mul_left hdR]
    calc (q.den : ℝ) * (q.toR + Real.sqrt r.toR)
        = (q.num : ℝ) + (q.den : ℝ) * Real.sqrt r.toR := by
          rw [hqtoR]; field_simp; ring
      _ < (q.num : ℝ) + (s : ℝ) + 1 := by linarith
      _ ≤ (q.den : ℝ) * ((z : ℝ) + 1) := hzuR

lemma floorSubSqrt_spec (q r : Frac) (hq : q.WF) (hr : r.WF) (hrn : 0 ≤ r.num) :
    (floorSubSqrt q r : ℝ) ≤ q.toR - Real.sqrt r.toR ∧
      q.toR - Real.sqrt r.toR < floorSubSqrt q r + 1 := by
  have hd : (0:ℤ) < (q.den : ℤ) := by exact_mod_cast (hq : 0 < q.den)
  have hdR : (0:ℝ) < (q.den : ℝ) := by exact_mod_cast hd
  have hr' : (Frac.mk ((q.den : ℤ) ^ 2 * r.num) r.den).WF := hr
  have hrn' : 0 ≤ (Frac.mk ((q.den : ℤ) ^ 2 * r.num) r.den).num :=
    mul_nonneg (by positivity) hrn
  obtain ⟨hs1, hs2⟩ := ratSqrtCeil_spec _ hr' hrn'
  rw [radicand_toR q r, Real.sqrt_mul (by positivity),
    Real.sqrt_sq (by positivity)] at hs1 hs2
  set s := ratSqrtCeil (Frac.mk ((q.den : ℤ) ^ 2 * r.num) r.den) with hs
  have hdiv := Int.ediv_add_emod (q.num - (s : ℤ)) (q.den : ℤ)
  have hm1 := Int.emod_nonneg (q.num - (s : ℤ)) (ne_of_gt hd)
  have hm2 := Int.emod_lt_of_pos (q.num - (s : ℤ)) hd
  have hzval : floorSubSqrt q r = (q.num - (s : ℤ)) / (q.den : ℤ) := rfl
  set z := (q.num - (s : ℤ)) / (q.den : ℤ) with hz
  have hzl : (q.den : ℤ) * z ≤ q.num - (s : ℤ) := by linarith
  have hzu : q.num - (s : ℤ) < (q.den : ℤ) * (z + 1) := by
    have hexp : (q.den : ℤ) * (z + 1) = (q.den : ℤ) * z + (q.den : ℤ) := by ring
    linarith
  have hzlR : (q.den : ℝ) * (z : ℝ) ≤ (q.num : ℝ) - (s : ℝ) := by exact_mod_cast hzl
  have hzuR : (q.num : ℝ) - (s : ℝ) + 1 ≤ (q.den : ℝ) * ((z : ℝ) + 1) := by
    have : q.num - (s : ℤ) + 1 ≤ (q.den : ℤ) * (z + 1) := by omega
    exact_mod_cast this
  have hqtoR : q.toR = (q.num : ℝ) / (q.den : ℝ) := rfl
  rw [hzval]
  constructor
  · rw [← mul_le_mul_left hdR]
    calc (q.den : ℝ) * (z : ℝ) ≤ (q.num : ℝ) - (s : ℝ) := hzlR
      _ ≤ (q.num : ℝ) - (q.den : ℝ) * Real.sqrt r.toR := by linarith
      _ = (q.den : ℝ) * (q.toR - Real.sqrt r.toR) := by
          rw [hqtoR]; field_simp
  · rw [← mul_lt_mul_left hdR]
    calc (q.den : ℝ) * (q.toR - Real.sqrt r.toR)
        = (q.num : ℝ) - (q.den : ℝ) * Real.sqrt r.toR := by
          rw [hqtoR]; field_simp
      _ < (q.num : ℝ) - (s : ℝ) + 1 := by linarith
      _ ≤ (q.den : ℝ) * ((z : ℝ) + 1) := hzuR

lemma Frac.toR_neg (a : Frac) : a.neg.toR = -a.toR := by
  unfold Frac.toR Frac.neg
  push_cast
  ring

lemma truncAddSqrt_bounds (q r : Frac) (hq : q.WF) (hr : r.WF) (hrn : 0 ≤ r.num) :
    q.toR + Real.sqrt r.toR - 1 < (truncAddSqrt q r : ℝ) ∧
      (truncAddSqrt q r : ℝ) < q.toR + Real.sqrt r.toR + 1 := by
  unfold truncAddSqrt
  split_ifs with hcond
  · obtain ⟨h1, h2⟩ := floorAddSqrt_spec q r hq hr hrn
    exact ⟨by linarith, by linarith⟩
  · obtain ⟨h1, h2⟩ := floorSubSqrt_spec q.neg r hq hr hrn
    rw [Frac.toR_neg] at h1 h2
    push_cast
    exact ⟨by linarith, by linarith⟩

lemma truncSubSqrt_bounds (q r : Frac) (hq : q.WF) (hr : r.WF) (hrn : 0 ≤ r.num) :
    q.toR - Real.sqrt r.toR - 1 < (truncSubSqrt q r : ℝ) ∧
      (truncSubSqrt q r : ℝ) < q.toR - Real.sqrt r.toR + 1 := by
  unfold truncSubSqrt
  split_ifs with hcond
  · obtain ⟨h1, h2⟩ := floorSubSqrt_spec q r hq hr hrn
    exact ⟨by linarith, by linarith⟩
  · obtain ⟨h1, h2⟩ := floorAddSqrt_spec q.neg r hq hr hrn
    rw [Frac.toR_neg] at h1 h2
    push_cast
    exact ⟨by linarith, by linarith⟩

lemma pyRangeAux_bounds (stop step : ℤ) (hstep : 0 < step) :
    ∀ (f : ℕ) (cur x : ℤ), x ∈ pyRangeAux stop step f cur → cur ≤ x ∧ x < stop := by
  intro f
  induction f with
  | zero => intro cur x hx; simp [pyRangeAux] at hx
  | succ f ih =>
    intro cur x hx
    unfold pyRangeAux at hx
    by_cases hcond : (0 < step ∧ cur < stop) ∨ (step < 0 ∧ stop < cur)
    · rw [if_pos hcond] at hx
      have hcs : cur < stop := by
        rcases hcond with ⟨-, h⟩ | ⟨h, -⟩
        · exact h
        · omega
      rcases List.mem_cons.mp hx with hx | hx
      · exact ⟨le_of_eq hx.symm, by omega⟩
      · obtain ⟨h1, h2⟩ := ih (cur + step) x hx
        exact ⟨by omega, h2⟩
    · rw [if_neg hcond] at hx
      simp at hx

lemma pyRange_bounds (start stop step : ℤ) (hstep : 0 < step) {x : ℤ}
    (hx : x ∈ pyRange start stop step) : start ≤ x ∧ x < stop :=
  pyRangeAux_bounds stop step hstep _ start x hx

lemma foldl_choice_mem {f : Frac → Frac → Frac}
    (hf : ∀ a b, f a b = a ∨ f a b = b) :
    ∀ (rest : List Frac) (a : Frac), rest.foldl f a ∈ a :: rest := by
  intro rest
  induction rest with
  | nil => intro a; simp
  | cons b rest' ih =>
    intro a
    have hib := ih (f a b)
    rcases hf a b with h | h <;> rw [h] at hib
    · rcases List.mem_cons.mp hib with h2 | h2
      · rw [List.foldl_cons, h, h2]; simp
      · rw [List.foldl_cons, h]; simp [h2]
    · rcases List.mem_cons.mp hib with h2 | h2
      · rw [List.foldl_cons, h, h2]; simp
      · rw [List.foldl_cons, h]; simp [h2]

lemma listMaxF_mem (l : List Frac) (hne : l ≠ []) : listMaxF l ∈ l := by
  rcases l with _ | ⟨a, rest⟩
  · exact absurd rfl hne
  · unfold listMaxF
    exact foldl_choice_mem (fun a b => by
      by_cases h : Frac.blt a b = true
      · right; simp [h]
      · left; simp [h]) rest a

lemma listMinF_mem (l : List Frac) (hne : l ≠ []) : listMinF l ∈ l := by
  rcases l with _ | ⟨a, rest⟩
  · exact absurd rfl hne
  · unfold listMinF
    exact foldl_choice_mem (fun a b => by
      by_cases h : Frac.blt b a = true
      · right; simp [h]
      · left; simp [h]) rest a

lemma sqDistF_num_nonneg (p q : PointF) : 0 ≤ (sqDistF p q).num := by
  unfold sqDistF Frac.add Frac.mul Frac.sub
  have h1 : (0:ℤ) ≤ (p.1.num * q.1.den - q.1.num * p.1.den) *
      (p.1.num * q.1.den - q.1.num * p.1.den) := mul_self_nonneg _
  have h2 : (0:ℤ) ≤ (p.2.num * q.2.den - q.2.num * p.2.den) *
      (p.2.num * q.2.den - q.2.num * p.2.den) := mul_self_nonneg _
  positivity

lemma Frac.mkZ_WF {n d : ℤ} (hd : d ≠ 0) : (Frac.mkZ n d).WF := by
  unfold Frac.mkZ Frac.WF
  split_ifs with h
  · simp only
    omega
  · simp only
    omega

lemma Frac.div_WF {a b : Frac} (ha : a.WF) (hb : b.num ≠ 0) : (a.div b).WF := by
  have had : (a.den : ℤ) ≠ 0 := by
    have h := (ha : 0 < a.den)
    exact_mod_cast Nat.pos_iff_ne_zero.mp h
  unfold Frac.div
  exact Frac.mkZ_WF (mul_ne_zero had hb)

lemma crossTerm_WF {vw : PointF × PointF}
    (h1 : vw.1.1.WF ∧ vw.1.2.WF) (h2 : vw.2.1.WF ∧ vw.2.2.WF) :
    (crossTerm vw).WF :=
  Frac.sub_WF (Frac.mul_WF h1.1 h2.2) (Frac.mul_WF h2.1 h1.2)

lemma ringPairs_mem_WF {p : PolyQ} (hwf : p.RingWF) {vw : PointF × PointF}
    (h : vw ∈ ringPairs p) : (vw.1.1.WF ∧ vw.1.2.WF) ∧ (vw.2.1.WF ∧ vw.2.2.WF) := by
  rcases vw with ⟨v, w⟩
  obtain ⟨hv, hw⟩ := List.of_mem_zip h
  exact ⟨hwf v hv, hwf w (List.tail_subset _ hw)⟩

lemma foldr_add_WF {γ : Type} (f : γ → Frac) :
    ∀ (l : List γ), (∀ x ∈ l, (f x).WF) →
      (l.foldr (fun x acc => (f x).add acc) ⟨0, 1⟩).WF := by
  intro l
  induction l with
  | nil =>
    intro h
    exact Nat.one_pos
  | cons x xs ih =>
    intro h
    exact Frac.add_WF (h x (by simp)) (ih fun y hy => h y (by simp [hy]))

lemma polySumCross_WF {p : PolyQ} (hwf : p.RingWF) : (polySumCross p).WF :=
  foldr_add_WF crossTerm (ringPairs p) fun _ hvw =>
    crossTerm_WF (ringPairs_mem_WF hwf hvw).1 (ringPairs_mem_WF hwf hvw).2

lemma polyCentroid_WF {p : PolyQ} (hwf : p.RingWF)
    (hsum : ((Frac.ofInt 3).mul (polySumCross p)).num ≠ 0) :
    (polyCentroid p).1.WF ∧ (polyCentroid p).2.WF := by
  constructor
  · apply Frac.div_WF _ hsum
    exact foldr_add_WF (fun vw => (vw.1.1.add vw.2.1).mul (crossTerm vw)) (ringPairs p)
      fun vw hvw =>
        Frac.mul_WF (Frac.add_WF (ringPairs_mem_WF hwf hvw).1.1 (ringPairs_mem_WF hwf hvw).2.1)
          (crossTerm_WF (ringPairs_mem_WF hwf hvw).1 (ringPairs_mem_WF hwf hvw).2)
  · apply Frac.div_WF _ hsum
    exact foldr_add_WF (fun vw => (vw.1.2.add vw.2.2).mul (crossTerm vw)) (ringPairs p)
      fun vw hvw =>
        Frac.mul_WF (Frac.add_WF (ringPairs_mem_WF hwf hvw).1.2 (ringPairs_mem_WF hwf hvw).2.2)
          (crossTerm_WF (ringPairs_mem_WF hwf hvw).1 (ringPairs_mem_WF hwf hvw).2)

lemma polyBufSq_WF {p : PolyQ} (hwf : p.RingWF) (hne : p.ring ≠ [])
    (hsum : ((Frac.ofInt 3).mul (polySumCross p)).num ≠ 0) :
    (polyBufSq p).WF ∧ 0 ≤ (polyBufSq p).num := by
  have hmem : polyBufSq p ∈ p.ring.map fun v => sqDistF (polyCentroid p) v :=
    listMaxF_mem _ (by simpa using hne)
  obtain ⟨v, hv, heq⟩ := List.mem_map.mp hmem
  obtain ⟨hc1, hc2⟩ := polyCentroid_WF hwf hsum
  rw [← heq]
  exact ⟨sqDistF_WF hc1 hc2 (hwf v hv).1 (hwf v hv).2, sqDistF_num_nonneg _ _⟩

lemma ringMinX_WF {p : PolyQ} (hwf : p.RingWF) (hne : p.ring ≠ []) :
    (ringMinX p).WF := by
  have hmem : ringMinX p ∈ p.ring.map (·.1) := listMinF_mem _ (by simpa using hne)
  obtain ⟨v, hv, heq⟩ := List.mem_map.mp hmem
  rw [← heq]
  exact (hwf v hv).1

lemma ringMaxX_WF {p : PolyQ} (hwf : p.RingWF) (hne : p.ring ≠ []) :
    (ringMaxX p).WF := by
  have hmem : ringMaxX p ∈ p.ring.map (·.1) := listMaxF_mem _ (by simpa using hne)
  obtain ⟨v, hv, heq⟩ := List.mem_map.mp hmem
  rw [← heq]
  exact (hwf v hv).1

lemma ringMinY_WF {p : PolyQ} (hwf : p.RingWF) (hne : p.ring ≠ []) :
    (ringMinY p).WF := by
  have hmem : ringMinY p ∈ p.ring.map (·.2) := listMinF_mem _ (by simpa using hne)
  obtain ⟨v, hv, heq⟩ := List.mem_map.mp hmem
  rw [← heq]
  exact (hwf v hv).2

lemma ringMaxY_WF {p : PolyQ} (hwf : p.RingWF) (hne : p.ring ≠ []) :
    (ringMaxY p).WF := by
  have hmem : ringMaxY p ∈ p.ring.map (·.2) := listMaxF_mem _ (by simpa using hne)
  obtain ⟨v, hv, heq⟩ := List.mem_map.mp hmem
  rw [← heq]
  exact (hwf v hv).2

lemma mem_reassignIds {c : CellB} {l : List CellB} (hc : c ∈ reassignIds l) :
    ∃ c0 ∈ l, c.box = c0.box ∧ c.passable = c0.passable := by
  unfold reassignIds at hc
  obtain ⟨ic, hic, heq⟩ := List.mem_map.mp hc
  refine ⟨ic.2, ?_, by rw [← heq], by rw [← heq]⟩
  have : ic.2 ∈ l.enum.map Prod.snd := List.mem_map_of_mem _ hic
  rwa [List.enum_map_snd] at this

lemma createVectorGrid_cells_mem {poly : PolyQ} {cs : ℤ} {rot : Option Frac}
    {obst : Option ((ℤ × ℤ × ℤ × ℤ) → Bool)} {g : GridQ}
    (hg : createVectorGrid poly cs rot obst = .ok g) {c : CellB} (hc : c ∈ g.cells) :
    ∃ x y : ℤ,
      x ∈ pyRange (truncSubSqrt (ringMinX poly) (polyBufSq poly))
        (truncAddSqrt (ringMaxX poly) (polyBufSq poly)) cs ∧
      y ∈ pyRange (truncSubSqrt (ringMinY poly) (polyBufSq poly))
        (truncAddSqrt (ringMaxY poly) (polyBufSq poly)) cs ∧
      c.box = (x, y, x + cs, y + cs) := by
  unfold createVectorGrid at hg
  by_cases h0 : cs = 0
  · rw [if_pos h0] at hg
    exact absurd hg (fun hc => Except.noConfusion hc)
  · rw [if_neg h0] at hg
    have hrec := Except.ok.inj hg
    rw [← hrec] at hc
    obtain ⟨c0, hc0, hbox, -⟩ := mem_reassignIds hc
    obtain ⟨b, hb, hc0b⟩ := List.mem_map.mp hc0
    obtain ⟨x, hx, hxb⟩ := List.mem_flatMap.mp hb
    obtain ⟨y, hy, hyb⟩ := List.mem_map.mp hxb
    refine ⟨x, y, hx, hy, ?_⟩
    rw [hbox, ← hc0b, ← hyb]

/-- C8 (amended): for a non-degenerate boundary and positive cell_size,
every generated cell is a full cell_size square whose lower-left corner
lies inside the bounding box expanded by the buffer (within the 1-unit
slack of Python int() truncation); far-edge cells are emitted at full
size, so a cell may extend up to cell_size beyond the expanded box, and
no cell is truncated. -/
theorem cells_full_size_in_expanded_box (poly : PolyQ) (cs : ℤ) (rot : Option Frac)
    (obst : Option ((ℤ × ℤ × ℤ × ℤ) → Bool)) (g : GridQ)
    (hwf : poly.RingWF) (hne : poly.ring ≠ [])
    (hsum : ((Frac.ofInt 3).mul (polySumCross poly)).num ≠ 0)
    (hcs : 0 < cs)
    (hg : createVectorGrid poly cs rot obst = .ok g) :
    ∀ c ∈ g.cells,
      c.box.2.2.1 = c.box.1 + cs ∧ c.box.2.2.2 = c.box.2.1 + cs ∧
      (ringMinX poly).toR - Real.sqrt (polyBufSq poly).toR - 1 < (c.box.1 : ℝ) ∧
      ((c.box.1 : ℝ) < (ringMaxX poly).toR + Real.sqrt (polyBufSq poly).toR) ∧
      (ringMinY poly).toR - Real.sqrt (polyBufSq poly).toR - 1 < (c.box.2.1 : ℝ) ∧
      ((c.box.2.1 : ℝ) < (ringMaxY poly).toR + Real.sqrt (polyBufSq poly).toR) := by
  intro c hc
  obtain ⟨hbwf, hbnn⟩ := polyBufSq_WF hwf hne hsum
  obtain ⟨x, y, hx, hy, hbox⟩ := createVectorGrid_cells_mem hg hc
  obtain ⟨hx1, hx2⟩ := pyRange_bounds _ _ _ hcs hx
  obtain ⟨hy1, hy2⟩ := pyRange_bounds _ _ _ hcs hy
  obtain ⟨hsx1, hsx2⟩ :=
    truncSubSqrt_bounds (ringMinX poly) (polyBufSq poly) (ringMinX_WF hwf hne) hbwf hbnn
  obtain ⟨hax1, hax2⟩ :=
    truncAddSqrt_bounds (ringMaxX poly) (polyBufSq poly) (ringMaxX_WF hwf hne) hbwf hbnn
  obtain ⟨hsy1, hsy2⟩ :=
    truncSubSqrt_bounds (ringMinY poly) (polyBufSq poly) (ringMinY_WF hwf hne) hbwf hbnn
  obtain ⟨hay1, hay2⟩ :=
    truncAddSqrt_bounds (ringMaxY poly) (polyBufSq poly) (ringMaxY_WF hwf hne) hbwf hbnn
  have hx1R : (truncSubSqrt (ringMinX poly) (polyBufSq poly) : ℝ) ≤ (x : ℝ) := by
    exact_mod_cast hx1
  have hx2R : (x : ℝ) + 1 ≤ (truncAddSqrt (ringMaxX poly) (polyBufSq poly) : ℝ) := by
    exact_mod_cast hx2
  have hy1R : (truncSubSqrt (ringMinY poly) (polyBufSq poly) : ℝ) ≤ (y : ℝ) := by
    exact_mod_cast hy1
  have hy2R : (y : ℝ) + 1 ≤ (truncAddSqrt (ringMaxY poly) (polyBufSq poly) : ℝ) := by
    exact_mod_cast hy2
  rw [hbox]
  refine ⟨rfl, rfl, ?_, ?_, ?_, ?_⟩
  · simp only
    linarith
  · simp only
    linarith
  · simp only
    linarith
  · simp only
    linarith

set_option maxRecDepth 8000 in
/-- C8 (counterexample to the claim as stated): in the 100 x 100 square
scenario with cell_size 25, the far-corner cell (id 99) has box
[155,180) x [155,180), and 180 exceeds the expanded bounding-box edge
100 + sqrt 5000; the cell is emitted at full size, not truncated to the
box. -/
theorem cells_outside_box_cex :
    ((createVectorGrid sq100 25 none none).map fun g =>
      (g.cells.find? fun c => c.id == 99).map (·.box)) = .ok (some (155, 155, 180, 180)) ∧
    (ringMaxX sq100).toR + Real.sqrt (polyBufSq sq100).toR < 180 := by
  constructor
  · decide
  · have h1 : ringMaxX sq100 = ⟨100, 1⟩ := by decide
    have h2 : polyBufSq sq100 = ⟨64800000000000000000000, 12960000000000000000⟩ := by
      decide
    rw [h1, h2]
    have h3 : (Frac.mk 100 1).toR = 100 := by
      norm_num [Frac.toR]
    have h4 : (Frac.mk 64800000000000000000000 12960000000000000000).toR = 5000 := by
      norm_num [Frac.toR]
    rw [h3, h4]
    have h5 : Real.sqrt 5000 < 80 := by
      nlinarith [Real.sq_sqrt (by norm_num : (0:ℝ) ≤ 5000), Real.sqrt_nonneg 5000]
    linarith

theorem cells_full_size_in_expanded_box_witness :
    (99 : ℤ) = -1 + 100 ∧ (99 : ℤ) = -1 + 100 ∧
    (ringMinX tinyPoly).toR - Real.sqrt (polyBufSq tinyPoly).toR - 1 < ((-1 : ℤ) : ℝ) ∧
    (((-1 : ℤ) : ℝ) < (ringMaxX tinyPoly).toR + Real.sqrt (polyBufSq tinyPoly).toR) ∧
    (ringMinY tinyPoly).toR - Real.sqrt (polyBufSq tinyPoly).toR - 1 < ((-1 : ℤ) : ℝ) ∧
    (((-1 : ℤ) : ℝ) < (ringMaxY tinyPoly).toR + Real.sqrt (polyBufSq tinyPoly).toR) :=
  cells_full_size_in_expanded_box tinyPoly 100 none none tinyGrid
    (by decide) (by decide) (by decide) (by decide) (by decide)
    { box := (-1, -1, 99, 99), passable := true, id := 0 } (by decide)

lemma rotatePointDeg_comp (a b : ℝ) (o p : ℝ × ℝ) :
    rotatePointDeg b o (rotatePointDeg a o p) = rotatePointDeg (a + b) o p := by
  have hsplit : (a + b) * Real.pi / 180 = a * Real.pi / 180 + b * Real.pi / 180 := by
    ring
  simp only [rotatePointDeg, hsplit, Real.cos_add, Real.sin_add, Prod.mk.injEq]
  constructor <;> ring

lemma rotatePointDeg_zero (o p : ℝ × ℝ) : rotatePointDeg 0 o p = p := by
  obtain ⟨x, y⟩ := p
  simp only [rotatePointDeg, zero_mul, zero_div, Real.cos_zero, Real.sin_zero,
    Prod.mk.injEq]
  constructor <;> ring

/-- C10: rotation is cumulative, not absolute: rotating by a and then by
b rotates every cell geometry by a total of a + b degrees about the
boundary centroid, while the stored rotation attribute afterwards equals
only the last angle b; rotating by a and then by -a restores the original
cell list exactly; and no rotation ever changes a passable flag. -/
theorem rotate_cumulative (g : VGridR) (a b : ℝ) :
    ((g.rotate a).rotate b).cells =
      (g.cells.map fun c =>
        { c with geom := c.geom.map (rotatePointDeg (a + b) g.origin) }) ∧
    VGridR.rotation ((g.rotate a).rotate b) = some b ∧
    ((g.rotate a).rotate (-a)).cells = g.cells ∧
    (∀ θ : ℝ, (g.rotate θ).cells.map (·.passable) = g.cells.map (·.passable)) := by
  have hcells : ∀ (x y : ℝ), ((g.rotate x).rotate y).cells =
      g.cells.map (fun c =>
        { c with geom := c.geom.map (rotatePointDeg (x + y) g.origin) }) := by
    intro x y
    simp only [VGridR.rotate, List.map_map]
    apply List.map_congr_left
    intro c _
    simp only [Function.comp_apply, List.map_map]
    congr 1
    apply List.map_congr_left
    intro p _
    exact rotatePointDeg_comp x y g.origin p
  refine ⟨hcells a b, rfl, ?_, ?_⟩
  · rw [hcells a (-a), add_neg_cancel]
    have hid : ∀ c ∈ g.cells,
        ({ c with geom := c.geom.map (rotatePointDeg 0 g.origin) } : CellR) = c := by
      intro c _
      have hg : c.geom.map (rotatePointDeg 0 g.origin) = c.geom := by
        have := List.map_congr_left (l := c.geom)
          (f := rotatePointDeg 0 g.origin) (g := id)
          (fun p _ => rotatePointDeg_zero g.origin p)
        simpa using this
      cases c
      simp only at hg
      simp [hg]
    calc g.cells.map (fun c =>
          { c with geom := c.geom.map (rotatePointDeg 0 g.origin) })
        = g.cells.map id := List.map_congr_left hid
      _ = g.cells := List.map_id g.cells
  · intro θ
    simp only [VGridR.rotate, List.map_map]
    rfl
